import Mathlib

/-!
Verification of the Task Dependency Graph Analyzer specification for the
Journeyman-Jobs repository, together with the prompt-enhancement hook found
under `scripts/quality_checks/prompt_enhancement.py`.

The analyzer itself (registry, graph builder, validator, cycle detector,
level assigner, critical-path finder, bottleneck ranker, statistics
assembler) is not present in the shipped source tree; its behaviour is
modelled here from the specification's own wording and the properties are
settled against that model.  The prompt-enhancement hook is embedded
directly from the Python source.
-/

namespace TaskAnalyzer

/-- Modelled from the spec: task priority, one of low/medium/high/critical,
ordered low < medium < high < critical (spec section 3). -/
inductive Priority where
  | low
  | medium
  | high
  | critical
deriving DecidableEq

/-- Modelled from the spec: numeric priority ranks, low=1, medium=2, high=3,
critical=4 (spec section 4.3). -/
def Priority.rank : Priority → Nat
  | .low => 1
  | .medium => 2
  | .high => 3
  | .critical => 4

/-- Modelled from the spec: a task record (spec section 3): id, display name,
priority, hard and soft dependency id sets, and a provenance marker. -/
structure TaskRecord where
  id : String
  name : String
  priority : Priority
  hard_dependencies : List String
  soft_dependencies : List String
  source_location : String
deriving DecidableEq

/-- Modelled from the spec: the dependency set of a task; hard and soft
dependencies are treated identically, both become graph edges
(spec section 3), deduplicated since they are sets. -/
def TaskRecord.deps (t : TaskRecord) : List String :=
  (t.hard_dependencies ++ t.soft_dependencies).dedup

/-- Modelled from the spec: the in-memory Task Registry holding validated
records (spec section 4.1). -/
structure Registry where
  records : List TaskRecord
deriving DecidableEq

/-- Modelled from the spec: registration failure kind (spec section 4.1). -/
inductive RegistryError where
  | DuplicateTaskError (id : String)
deriving DecidableEq

/-- Modelled from the spec: O(1) lookup by id, `get(id) -> record | NotFound`
(spec section 4.1). -/
def Registry.get (r : Registry) (id : String) : Option TaskRecord :=
  r.records.find? (fun t => t.id == id)

/-- Modelled from the spec: `register(record)` fails with `DuplicateTaskError`
if the id is already present; otherwise the record is appended
(spec section 4.1). -/
def Registry.register (r : Registry) (rec : TaskRecord) :
    Except RegistryError Registry :=
  if r.records.any (fun t => t.id == rec.id) then
    .error (.DuplicateTaskError rec.id)
  else
    .ok ⟨r.records ++ [rec]⟩

end TaskAnalyzer

namespace PromptEnhancer

/-- Is `needle` an initial segment of `hay`?  Helper for the Python substring
test `needle in hay`. -/
def hasPre : List Char → List Char → Bool
  | [], _ => true
  | _ :: _, [] => false
  | a :: as, b :: bs => a == b && hasPre as bs

/-- Does `needle` occur contiguously inside `hay`?  Embeds Python's
`needle in hay` on strings. -/
def hasSub (needle : List Char) : List Char → Bool
  | [] => hasPre needle []
  | b :: bs => hasPre needle (b :: bs) || hasSub needle bs

/-- The character list of the lowercased prompt; lowercasing is applied
character by character (the keyword patterns are all ASCII). -/
def lowerChars (p : String) : List Char :=
  p.toList.map Char.toLower

/-- Embeds `keyword in prompt.lower()` from `prompt_enhancement.py`. -/
def hasWord (prompt : String) (w : String) : Bool :=
  hasSub w.toList (lowerChars prompt)

/-- Embeds `any(keyword in prompt.lower() for keyword in keywords)`. -/
def matchesAny (prompt : String) (keywords : List String) : Bool :=
  keywords.any (fun k => hasWord prompt k)

/-- Guidance text returned for job-card component requests
(`_check_component_patterns`, first branch). -/
def componentGuidanceJobCard : String :=
  "\n🚨 COMPONENT GUIDANCE: Job Card components already exist!\n- Use existing JobCard with JobCardVariant.half or JobCardVariant.full\n- Located: lib/design_system/components/job_card.dart\n- Avoid creating duplicate job card components\n- If new functionality needed, extend existing JobCard with additional parameters\n"

/-- Guidance text returned for general component requests
(`_check_component_patterns`, second branch). -/
def componentBestPractices : String :=
  "\n📋 COMPONENT BEST PRACTICES:\n- Place reusable components in lib/design_system/components/\n- Use ConsumerWidget for state access with Riverpod\n- Include electrical theme elements (AppTheme.primaryNavy, AppTheme.accentCopper)\n- Add proper documentation with /// comments\n- Follow naming convention: ComponentNameWidget\n"

/-- Guidance text for state-management requests
(`_check_state_management_patterns`). -/
def stateManagementGuidance : String :=
  "\n🔄 STATE MANAGEMENT GUIDANCE:\n- This project uses Riverpod, not Provider\n- Use ConsumerWidget instead of StatefulWidget\n- Access state with ref.watch(providerName) or ref.read(providerName)\n- Create providers in lib/providers/riverpod/\n- Example: final jobsProvider = StateNotifierProvider<JobsNotifier, List<Job>>((ref) => JobsNotifier());\n"

/-- Guidance text for screen-creation requests (`_check_screen_patterns`). -/
def screenRequirements : String :=
  "\n⚡ SCREEN REQUIREMENTS:\n- All screens must include electrical background: CircuitPatternBackground() or ElectricalBackground()\n- Use ConsumerWidget for Riverpod state access\n- Place in lib/screens/[category]/[screen_name]_screen.dart\n- Include electrical theme colors: AppTheme.primaryNavy, AppTheme.accentCopper\n- Add to app_router.dart for navigation\n- Required structure: Scaffold with backgroundColor and proper AppBar placement\n"

/-- Guidance text for styling requests (`_check_theme_patterns`). -/
def themeGuidance : String :=
  "\n🎨 ELECTRICAL THEME GUIDANCE:\n- Use AppTheme constants: AppTheme.primaryNavy, AppTheme.accentCopper\n- Never use hardcoded Color(0xFF...) values\n- Import: '../design_system/app_theme.dart'\n- Primary colors: Navy (#1A202C) and Copper (#B45309)\n- Include electrical elements: circuit patterns, lightning effects\n- Use JJ prefix for custom components (e.g., JJButton, JJElectricalLoader)\n"

/-- Guidance text for job-related requests (`_check_job_patterns`). -/
def jobGuidance : String :=
  "\n💼 JOB FUNCTIONALITY GUIDANCE:\n- Use existing JobCard component with variants (half/full)\n- Job data model: lib/models/job_model.dart\n- Job service: lib/services/job_service.dart (if needed)\n- Job provider: lib/providers/riverpod/jobs_riverpod_provider.dart\n- Follow IBEW electrical worker terminology\n- Include storm work indicators where applicable\n"

/-- Guidance text for refactoring requests (`_check_refactor_patterns`). -/
def refactorGuidance : String :=
  "\n🔧 REFACTORING GUIDANCE:\n- Maintain electrical theme consistency throughout changes\n- Convert Provider patterns to Riverpod where found\n- Ensure proper import organization (dart → flutter → packages → relative)\n- Keep existing JobCard patterns, avoid creating duplicates\n- Validate RichText follows Label: Value format\n- Check for AppBar in correct Scaffold.appBar position\n- Use AppTheme constants instead of hardcoded colors\n"

/-- Quality checklist text (`_add_quality_reminders`). -/
def qualityChecklist : String :=
  "\n✅ QUALITY CHECKLIST:\n- Use Riverpod (ConsumerWidget) for state management\n- Include electrical backgrounds for screens\n- Follow import organization: dart → flutter → packages → relative\n- Use AppTheme constants for colors\n- Place files in correct lib/ subdirectories\n- Add /// documentation for new components\n- Avoid duplicate components (especially JobCard variants)\n- Ensure AppBar is in Scaffold.appBar, not body\n"

/-- Embeds `PromptEnhancer._check_component_patterns`. -/
def checkComponentPatterns (prompt : String) : Option String :=
  if matchesAny prompt
      ["create component", "new component", "build component", "component for"] then
    if hasWord prompt "job" && (hasWord prompt "card" || hasWord prompt "display") then
      some componentGuidanceJobCard
    else
      some componentBestPractices
  else
    none

/-- Embeds `PromptEnhancer._check_state_management_patterns`. -/
def checkStateManagementPatterns (prompt : String) : Option String :=
  if matchesAny prompt ["state", "provider", "manage", "data flow", "state management"] then
    if hasWord prompt "provider" && !(hasWord prompt "riverpod") then
      some stateManagementGuidance
    else
      none
  else
    none

/-- Embeds `PromptEnhancer._check_screen_patterns`. -/
def checkScreenPatterns (prompt : String) : Option String :=
  if matchesAny prompt ["screen", "page", "new screen", "create screen", "build screen"] then
    some screenRequirements
  else
    none

/-- Embeds `PromptEnhancer._check_theme_patterns`. -/
def checkThemePatterns (prompt : String) : Option String :=
  if matchesAny prompt ["color", "style", "theme", "design", "appearance", "ui"] then
    some themeGuidance
  else
    none

/-- Embeds `PromptEnhancer._check_job_patterns`. -/
def checkJobPatterns (prompt : String) : Option String :=
  if matchesAny prompt ["job", "position", "listing", "employment", "work"] then
    if hasWord prompt "card" || hasWord prompt "display" then
      some jobGuidance
    else
      none
  else
    none

/-- Embeds `PromptEnhancer._check_refactor_patterns`. -/
def checkRefactorPatterns (prompt : String) : Option String :=
  if matchesAny prompt ["refactor", "improve", "clean up", "optimize", "reorganize"] then
    some refactorGuidance
  else
    none

/-- Embeds `PromptEnhancer._add_quality_reminders`. -/
def addQualityReminders (prompt : String) : Option String :=
  if matchesAny prompt ["implement", "create", "build", "develop", "add", "make", "code"] then
    some qualityChecklist
  else
    none

/-- The ordered list of enhancement blocks collected by
`PromptEnhancer.enhance_prompt`: each check is run in source order and
non-`None` results are appended. -/
def enhancements (prompt : String) : List String :=
  [checkComponentPatterns prompt,
   checkStateManagementPatterns prompt,
   checkScreenPatterns prompt,
   checkThemePatterns prompt,
   checkJobPatterns prompt,
   checkRefactorPatterns prompt,
   addQualityReminders prompt].filterMap id

/-- Embeds `PromptEnhancer.enhance_prompt`: the original prompt, and when any
enhancement triggered, two newlines and the newline-joined blocks. -/
def enhance_prompt (prompt : String) : String :=
  let es := enhancements prompt
  if es.isEmpty then prompt
  else prompt ++ "\n\n" ++ String.intercalate "\n" es

end PromptEnhancer

namespace TaskAnalyzer

/-- Modelled from the spec: the dependency graph, node = task id, with an
edge `T -> D` for every dependency id `D` of a registered task `T`; built
fresh from the registry contents on every run (spec sections 3 and 4.2). -/
structure Graph where
  tasks : List TaskRecord

/-- Modelled from the spec: the Graph Builder, translating the registered
records into the directed graph (spec section 4.2). -/
def buildGraph (tasks : List TaskRecord) : Graph :=
  ⟨tasks⟩

/-- The ids of the registered tasks. -/
def Graph.registeredIds (g : Graph) : List String :=
  g.tasks.map TaskRecord.id

/-- All graph nodes: registered ids together with every dependency target,
dangling references included (spec section 4.2). -/
def Graph.nodes (g : Graph) : List String :=
  (g.registeredIds ++ g.tasks.flatMap TaskRecord.deps).dedup

/-- Successors of a node: the dependency list of the registered task with
that id; a dangling node has no outgoing edges. -/
def Graph.adj (g : Graph) (n : String) : List String :=
  match g.tasks.find? (fun t => t.id == n) with
  | some t => t.deps
  | none => []

/-- The edge relation of the dependency graph: `a` depends on `b`. -/
def Graph.Edge (g : Graph) (a b : String) : Prop :=
  b ∈ g.adj a

instance (g : Graph) (a b : String) : Decidable (g.Edge a b) :=
  inferInstanceAs (Decidable (b ∈ g.adj a))

/-- A cycle exists: some node reaches itself by a nonempty chain of
dependency edges. -/
def Graph.HasCycle (g : Graph) : Prop :=
  ∃ a, Relation.TransGen g.Edge a a

/-- A simple cycle, written as in the spec: `[a, b, c]` means
`a -> b -> c -> a` (spec section 4.4). -/
def Graph.IsSimpleCycle (g : Graph) (c : List String) : Prop :=
  c.Nodup ∧ List.Chain' g.Edge c ∧
    ∃ h l, c.head? = some h ∧ c.getLast? = some l ∧ g.Edge l h

/-- Modelled from the spec: DFS enumeration of the simple cycles through
`start`: `path` is the simple path walked so far (starting at `start`),
`cur` its last node; an edge back to `start` closes a cycle, already
visited nodes are skipped (spec section 4.4).  Rotations of one cycle may
be reported once per member node; the spec's properties only concern
emptiness and membership. -/
def cyclesAux (g : Graph) (start : String) : Nat → List String → String → List (List String)
  | 0, _, _ => []
  | fuel + 1, path, cur =>
    (g.adj cur).flatMap fun nxt =>
      if nxt = start then [path]
      else if nxt ∈ path then []
      else cyclesAux g start fuel (path ++ [nxt]) nxt

/-- Modelled from the spec: the Cycle Detector, enumerating simple cycles
from every node (spec section 4.4). -/
def findCycles (g : Graph) : List (List String) :=
  g.nodes.flatMap fun s => cyclesAux g s g.nodes.length [s] s

/-- The nodes ready in one Kahn round: none of their dependencies is still
unprocessed (dangling dependencies are never in `remaining`, hence skipped,
spec section 4.5). -/
def readyOf (g : Graph) (remaining : List String) : List String :=
  remaining.filter fun m => (g.adj m).all fun d => !(remaining.contains d)

/-- Modelled from the spec: one pass of Kahn's algorithm, emitting each
round's ready nodes before recursing on the rest (spec section 4.5). -/
def topoSortAux (g : Graph) : Nat → List String → Option (List String)
  | _, [] => some []
  | 0, _ :: _ => none
  | fuel + 1, n :: rest =>
    let ready := readyOf g (n :: rest)
    if ready.isEmpty then none
    else
      match topoSortAux g fuel ((n :: rest).filter fun m => !(ready.contains m)) with
      | some next => some (ready ++ next)
      | none => none

/-- Modelled from the spec: topological sort of the registered nodes,
dependencies before dependents; fails on cyclic graphs (spec section 4.5). -/
def Graph.topoSort (g : Graph) : Option (List String) :=
  topoSortAux g g.registeredIds.length g.registeredIds

/-- Modelled from the spec: `level(task) = 1 + max(level(dep) for dep with a
known level, else -1)`; with no resolvable dependency the level is 0
(spec section 4.5). -/
def levelValue (g : Graph) (acc : List (String × Nat)) (n : String) : Nat :=
  match ((g.adj n).filterMap fun d => acc.lookup d).max? with
  | some m => m + 1
  | none => 0

/-- One step of level assignment: append the binding for the next node of
the topological order. -/
def levelStep (g : Graph) (acc : List (String × Nat)) (n : String) : List (String × Nat) :=
  acc ++ [(n, levelValue g acc n)]

/-- Modelled from the spec: process the nodes in topological order,
assigning each its level (spec section 4.5). -/
def computeLevels (g : Graph) (order : List String) : List (String × Nat) :=
  order.foldl (levelStep g) []

/-- Modelled from the spec: the Level Assigner; if any cycle was found or
the topological sort fails, the level map is empty (spec section 4.5). -/
def assignLevels (g : Graph) (cycles : List (List String)) : List (String × Nat) :=
  if cycles.isEmpty then
    match g.topoSort with
    | some order => computeLevels g order
    | none => []
  else []

/-- Modelled from the spec: the structural error kind raised by the
Validator for a dangling reference (spec section 4.3). -/
inductive AnalysisError where
  | UnresolvedDependency (task : String) (missing : String)
deriving DecidableEq

/-- Modelled from the spec: the warning kind for priority inversion
(spec section 4.3). -/
inductive AnalysisWarning where
  | PriorityInversion (task : String) (dep : String)
deriving DecidableEq

/-- Modelled from the spec: the Validator's missing-dependency check: one
`UnresolvedDependency(task, missing_id)` per dangling reference
(spec section 4.3). -/
def unresolvedErrors (g : Graph) : List AnalysisError :=
  g.tasks.flatMap fun t =>
    t.deps.filterMap fun d =>
      if g.registeredIds.contains d then none
      else some (.UnresolvedDependency t.id d)

/-- Modelled from the spec: the Validator's priority-inversion check: warn
when a task's rank exceeds a registered dependency's rank
(spec section 4.3). -/
def priorityWarnings (g : Graph) : List AnalysisWarning :=
  g.tasks.flatMap fun t =>
    t.deps.filterMap fun d =>
      match g.tasks.find? (fun x => x.id == d) with
      | some dt =>
        if dt.priority.rank < t.priority.rank then some (.PriorityInversion t.id d)
        else none
      | none => none

/-- Modelled from the spec: the number of direct dependents of a task: how
many other registered tasks list its id as a dependency (spec section 4.7). -/
def dependentCount (g : Graph) (id : String) : Nat :=
  (g.tasks.filter fun t => (t.id != id) && t.deps.contains id).length

/-- Deterministic ranking order: larger dependent count first, ties broken
by lexical task id (spec sections 4.7 and 9). -/
def rankLE (a b : String × Nat) : Bool :=
  decide (b.2 < a.2) || (a.2 == b.2 && decide (a.1 ≤ b.1))

/-- Modelled from the spec: the Bottleneck Ranker: every task paired with
its direct-dependent count, sorted descending by count (spec section 4.7). -/
def bottleneckRanking (g : Graph) : List (String × Nat) :=
  (g.tasks.map fun t => (t.id, dependentCount g t.id)).mergeSort rankLE

/-- Modelled from the spec: root nodes: in-degree 0, no task depends on
them (spec section 4.6). -/
def Graph.roots (g : Graph) : List String :=
  g.nodes.filter fun n => !(g.tasks.any fun t => t.deps.contains n)

/-- Modelled from the spec: the search bound on path length,
`max(node_count, 20)` (spec section 4.6). -/
def pathBound (g : Graph) : Nat :=
  max g.nodes.length 20

/-- Modelled from the spec: DFS enumeration of the simple paths extending
`path` (whose last node is `cur`) by at most `fuel` further edges
(spec section 4.6). -/
def simplePathsFrom (g : Graph) : Nat → List String → String → List (List String)
  | 0, path, _ => [path]
  | fuel + 1, path, cur =>
    path :: ((g.adj cur).flatMap fun nxt =>
      if nxt ∈ path then [] else simplePathsFrom g fuel (path ++ [nxt]) nxt)

/-- Modelled from the spec: retain the single longest path found, ties
broken by first-found (spec section 4.6). -/
def pickLongest (candidates : List (List String)) : List String :=
  candidates.foldl (fun best p => if best.length < p.length then p else best) []

/-- Modelled from the spec: the Critical Path Finder: longest simple path
starting at a root, bounded by `pathBound`; empty when the graph has no
roots (spec section 4.6). -/
def criticalPath (g : Graph) : List String :=
  pickLongest (g.roots.flatMap fun r => simplePathsFrom g (pathBound g) [r] r)

/-- A simple dependency path starting at a root node. -/
def Graph.IsSimplePathFromRoot (g : Graph) (p : List String) : Prop :=
  p.Nodup ∧ List.Chain' g.Edge p ∧ p.head? ∈ g.roots.map Option.some

instance (g : Graph) (p : List String) : Decidable (g.IsSimplePathFromRoot p) :=
  inferInstanceAs
    (Decidable (p.Nodup ∧ List.Chain' g.Edge p ∧ p.head? ∈ g.roots.map Option.some))

/-- Modelled from the spec: the aggregate statistics of section 4.8 and the
output contract of section 6. -/
structure Statistics where
  total_tasks : Nat
  total_dependencies : Nat
  tasks_with_dependencies : Nat
  tasks_without_dependencies : Nat
  max_dependency_depth : Nat
  average_dependencies_per_task : ℚ
  circular_dependencies : Nat
  bottleneck_tasks : List (String × Nat)
deriving DecidableEq

/-- Modelled from the spec: the Analysis Result object handed to the report
renderer (spec section 6); the per-task level map is carried explicitly
since the testable properties P2 and P3 observe it. -/
structure AnalysisResult where
  success : Bool
  tasks_loaded : Nat
  statistics : Statistics
  circular_dependencies : List (List String)
  critical_path : List String
  levels : List (String × Nat)
  bottleneck_tasks : List (String × Nat)
  errors : List AnalysisError
  warnings : List AnalysisWarning
  visualization : String
deriving DecidableEq

/-- Modelled from the spec: the leveled text rendering: task ids grouped by
ascending level, each annotated with its dependency list; with cycles
present it states that cycles prevented leveling (spec section 4.8). -/
def renderVisualization (g : Graph) (cycles : List (List String))
    (levels : List (String × Nat)) : String :=
  if cycles.isEmpty then
    String.intercalate "\n" ((List.range (((levels.map Prod.snd).max?.getD 0) + 1)).map fun l =>
      "Level " ++ toString l ++ ": " ++
        String.intercalate ", " ((levels.filter fun p => p.2 == l).map fun p =>
          p.1 ++ " (deps: " ++ String.intercalate ", " (g.adj p.1) ++ ")"))
  else "Cycles detected: levels could not be computed"

/-- The all-zero statistics used when the input is empty. -/
def emptyStatistics : Statistics :=
  ⟨0, 0, 0, 0, 0, 0, 0, []⟩

/-- Modelled from the spec: the whole analysis pipeline `tasks -> analysis
result` (spec sections 2 and 6): empty input short-circuits with
`success = false` (spec section 8, Scenario E); otherwise the Validator,
Cycle Detector, Level Assigner, Critical Path Finder, Bottleneck Ranker and
Statistics Assembler all run on the graph exactly as built, and
`success` is true iff no unresolved-dependency error was collected. -/
def analyze (tasks : List TaskRecord) : AnalysisResult :=
  if tasks.isEmpty then
    { success := false
      tasks_loaded := 0
      statistics := emptyStatistics
      circular_dependencies := []
      critical_path := []
      levels := []
      bottleneck_tasks := []
      errors := []
      warnings := []
      visualization := "No tasks loaded" }
  else
    let g := buildGraph tasks
    let errs := unresolvedErrors g
    let warns := priorityWarnings g
    let cycles := findCycles g
    let levels := assignLevels g cycles
    let ranking := bottleneckRanking g
    let totalDeps := (tasks.map fun t => t.deps.length).sum
    { success := errs.isEmpty
      tasks_loaded := tasks.length
      statistics :=
        { total_tasks := tasks.length
          total_dependencies := totalDeps
          tasks_with_dependencies := (tasks.filter fun t => !t.deps.isEmpty).length
          tasks_without_dependencies := (tasks.filter fun t => t.deps.isEmpty).length
          max_dependency_depth :=
            match (levels.map Prod.snd).max? with
            | some m => m + 1
            | none => 0
          average_dependencies_per_task := (totalDeps : ℚ) / (tasks.length : ℚ)
          circular_dependencies := cycles.length
          bottleneck_tasks := ranking.take 5 }
      circular_dependencies := cycles
      critical_path := criticalPath g
      levels := levels
      bottleneck_tasks := ranking
      errors := errs
      warnings := warns
      visualization := renderVisualization g cycles levels }

/-- The dependency-in-remaining choice function used in the stalled-round
argument: for a node with some unprocessed dependency it picks one. -/
def stepF (g : Graph) (remaining : List String) (n : String) : String :=
  ((g.adj n).find? fun d => remaining.contains d).getD n

/-- Claim-side count for the bottleneck property: the number of distinct
other registered tasks whose dependency set contains the given id, counted
as the spec phrases it. -/
def distinctDependents (tasks : List TaskRecord) (id : String) : Nat :=
  (((tasks.filter fun t => (t.id != id) && t.deps.contains id).map TaskRecord.id).dedup).length

/-- Concrete record: task x of Scenario A, no dependencies. -/
def taskX : TaskRecord :=
  ⟨"x", "Task X", Priority.medium, [], [], "loc"⟩

/-- Concrete record: task y of Scenario A, depending on x. -/
def taskY : TaskRecord :=
  ⟨"y", "Task Y", Priority.medium, ["x"], [], "loc"⟩

/-- Concrete record: task z of Scenario A, depending on x. -/
def taskZ : TaskRecord :=
  ⟨"z", "Task Z", Priority.medium, ["x"], [], "loc"⟩

/-- Scenario A of the spec: `{x: deps=[], y: deps=[x], z: deps=[x]}`. -/
def scenarioA : List TaskRecord :=
  [taskX, taskY, taskZ]

/-- Scenario C of the spec: a single self-loop task. -/
def taskSelf : TaskRecord :=
  ⟨"a", "Task A", Priority.medium, ["a"], [], "loc"⟩

/-- Scenario D of the spec: a task referencing a missing dependency. -/
def taskMissing : TaskRecord :=
  ⟨"m", "Task M", Priority.medium, ["ghost"], [], "loc"⟩

/-- C9: registering a record whose id is already present fails with
`DuplicateTaskError` and never yields a new registry, so the previously
registered record is left unchanged. -/
theorem register_duplicate_fails (r : Registry) (rec old : TaskRecord)
    (h : r.get rec.id = some old) :
    r.register rec = Except.error (RegistryError.DuplicateTaskError rec.id) ∧
      (∀ r', r.register rec ≠ Except.ok r') := by
  unfold Registry.get at h
  have hmem : old ∈ r.records := List.mem_of_find?_eq_some h
  have hpred : (old.id == rec.id) = true := by
    have := List.find?_some h
    simpa using this
  have hany : r.records.any (fun t => t.id == rec.id) = true := by
    rw [List.any_eq_true]
    exact ⟨old, hmem, hpred⟩
  constructor
  · unfold Registry.register
    rw [hany]
    simp
  · intro r' hok
    unfold Registry.register at hok
    rw [hany] at hok
    simp at hok

/-- Witness for C9 at a concrete registry holding one record. -/
theorem register_duplicate_fails_witness :
    (Registry.register ⟨[⟨"a", "task a", Priority.medium, [], [], "loc"⟩]⟩
        ⟨"a", "task a again", Priority.low, [], [], "loc2"⟩) =
      Except.error (RegistryError.DuplicateTaskError "a") :=
  (register_duplicate_fails ⟨[⟨"a", "task a", Priority.medium, [], [], "loc"⟩]⟩
    ⟨"a", "task a again", Priority.low, [], [], "loc2"⟩
    ⟨"a", "task a", Priority.medium, [], [], "loc"⟩ rfl).1

end TaskAnalyzer

namespace PromptEnhancer

/-- C10: `enhance_prompt` always returns a string extending the original
prompt: the prompt unchanged when no check triggers, and otherwise the prompt
followed by two newlines and the newline-joined enhancement blocks. -/
theorem enhance_prompt_extends (p : String) :
    (∃ s, enhance_prompt p = p ++ s) ∧
      (enhancements p = [] → enhance_prompt p = p) ∧
      (enhancements p ≠ [] →
        enhance_prompt p = p ++ "\n\n" ++ String.intercalate "\n" (enhancements p)) := by
  unfold enhance_prompt
  by_cases h : enhancements p = []
  · refine ⟨⟨"", ?_⟩, fun _ => ?_, fun hne => absurd h hne⟩ <;>
      simp [h]
  · have hne : (enhancements p).isEmpty = false := by
      simp [List.isEmpty_iff, h]
    refine ⟨⟨"\n\n" ++ String.intercalate "\n" (enhancements p), ?_⟩,
      fun heq => absurd heq h, fun _ => ?_⟩ <;>
      simp [hne, String.append_assoc]

/-- Witness for C10: a prompt with no triggering keyword is returned
unchanged, and a prompt asking for a new screen is extended. -/
theorem enhance_prompt_extends_witness :
    enhance_prompt "hello" = "hello" ∧
      enhance_prompt "new screen" =
        "new screen" ++ "\n\n" ++ String.intercalate "\n" (enhancements "new screen") :=
  ⟨(enhance_prompt_extends "hello").2.1 (by decide),
   (enhance_prompt_extends "new screen").2.2 (by decide)⟩

end PromptEnhancer

namespace TaskAnalyzer

/-- Both endpoints of a dependency edge are nodes of the graph. -/
theorem edge_mem_nodes {g : Graph} {a b : String} (h : g.Edge a b) :
    a ∈ g.nodes ∧ b ∈ g.nodes := by
  unfold Graph.Edge at h
  unfold Graph.adj at h
  rcases heq : g.tasks.find? (fun t => t.id == a) with _ | t
  · rw [heq] at h
    simp at h
  · rw [heq] at h
    have hmem : t ∈ g.tasks := List.mem_of_find?_eq_some heq
    have hid := List.find?_some heq
    have hida : t.id = a := by simpa using hid
    constructor
    · unfold Graph.nodes Graph.registeredIds
      rw [List.mem_dedup]
      exact List.mem_append.mpr (Or.inl (hida ▸ List.mem_map_of_mem TaskRecord.id hmem))
    · unfold Graph.nodes
      rw [List.mem_dedup]
      exact List.mem_append.mpr (Or.inr (List.mem_flatMap.mpr ⟨t, hmem, h⟩))

/-- The node list of a graph has no duplicates. -/
theorem nodes_nodup (g : Graph) : g.nodes.Nodup :=
  List.nodup_dedup _

/-- A nonempty `Chain'` of a relation joins its head to its last element in
the reflexive-transitive closure. -/
theorem chain'_reflTransGen {R : String → String → Prop} :
    ∀ (l : List String) (a b : String), List.Chain' R l →
      l.head? = some a → l.getLast? = some b → Relation.ReflTransGen R a b := by
  intro l
  induction l with
  | nil => intro a b _ ha _; simp at ha
  | cons x rest ih =>
    intro a b hch ha hb
    have hax : a = x := by simpa using ha.symm
    cases rest with
    | nil =>
      have hbx : b = x := by simpa using hb.symm
      subst hax hbx
      exact Relation.ReflTransGen.refl
    | cons y rest' =>
      rw [List.chain'_cons] at hch
      have hyb : Relation.ReflTransGen R y b := by
        apply ih y b hch.2
        · rfl
        · rw [List.getLast?_cons_cons] at hb
          exact hb
      subst hax
      exact Relation.ReflTransGen.head hch.1 hyb

/-- Every list the DFS cycle enumerator emits extends the walked path into a
closed chain of edges back to `start`. -/
theorem cyclesAux_sound {g : Graph} {start : String} :
    ∀ (fuel : Nat) (path : List String) (cur : String) (c : List String),
      c ∈ cyclesAux g start fuel path cur →
      path.head? = some start → path.getLast? = some cur →
      List.Chain' g.Edge path →
      c.head? = some start ∧ List.Chain' g.Edge c ∧
        ∃ l, c.getLast? = some l ∧ g.Edge l start := by
  intro fuel
  induction fuel with
  | zero => intro path cur c hc; simp [cyclesAux] at hc
  | succ fuel ih =>
    intro path cur c hc hhead hlast hch
    rw [cyclesAux, List.mem_flatMap] at hc
    obtain ⟨nxt, hnxt, hmem⟩ := hc
    by_cases hstart : nxt = start
    · rw [if_pos hstart] at hmem
      have hcp : c = path := by simpa using hmem
      subst hcp
      exact ⟨hhead, hch, cur, hlast, by rw [← hstart]; exact hnxt⟩
    · rw [if_neg hstart] at hmem
      by_cases hin : nxt ∈ path
      · rw [if_pos hin] at hmem
        simp at hmem
      · rw [if_neg hin] at hmem
        have hpne : path ≠ [] := by
          intro hnil
          rw [hnil] at hhead
          simp at hhead
        apply ih (path ++ [nxt]) nxt c hmem
        · rw [List.head?_append_of_ne_nil path hpne]
          exact hhead
        · exact List.getLast?_concat path
        · rw [List.chain'_append]
          refine ⟨hch, List.chain'_singleton nxt, ?_⟩
          intro u hu v hv
          rw [hlast] at hu
          simp at hu hv
          rw [← hu, ← hv]
          exact hnxt

/-- Any member of the cycle list witnesses a real cycle in the graph. -/
theorem findCycles_sound {g : Graph} {c : List String} (h : c ∈ findCycles g) :
    g.HasCycle := by
  unfold findCycles at h
  rw [List.mem_flatMap] at h
  obtain ⟨s, _, hmem⟩ := h
  obtain ⟨hhead, hch, l, hlast, hedge⟩ :=
    cyclesAux_sound g.nodes.length [s] s c hmem rfl rfl (List.chain'_singleton s)
  have hrtg : Relation.ReflTransGen g.Edge s l := chain'_reflTransGen c s l hch hhead hlast
  rcases Relation.reflTransGen_iff_eq_or_transGen.mp hrtg with heq | htg
  · exact ⟨s, Relation.TransGen.single (heq ▸ hedge)⟩
  · exact ⟨s, Relation.TransGen.tail htg hedge⟩

/-- On an acyclic graph the Cycle Detector reports no cycles. -/
theorem acyclic_findCycles_nil {g : Graph} (h : ¬ g.HasCycle) : findCycles g = [] := by
  rw [List.eq_nil_iff_forall_not_mem]
  intro c hc
  exact h (findCycles_sound hc)

end TaskAnalyzer

namespace TaskAnalyzer

/-- A nonempty transitive chain of edges can be written as a walk list. -/
theorem transGen_exists_chain {R : String → String → Prop} {a b : String}
    (h : Relation.TransGen R a b) :
    ∃ l, List.Chain' R l ∧ l.head? = some a ∧ l.getLast? = some b ∧ 2 ≤ l.length := by
  induction h with
  | single hr =>
    rename_i c
    refine ⟨[a, c], ?_, rfl, rfl, by simp⟩
    rw [List.chain'_cons]
    exact ⟨hr, List.chain'_singleton c⟩
  | tail _ hr ih =>
    rename_i u v _
    obtain ⟨l, hch, hhead, hlast, hlen⟩ := ih
    have hlne : l ≠ [] := by
      intro hnil
      rw [hnil] at hhead
      simp at hhead
    refine ⟨l ++ [v], ?_, ?_, List.getLast?_concat l, ?_⟩
    · rw [List.chain'_append]
      refine ⟨hch, List.chain'_singleton v, ?_⟩
      intro x hx y hy
      rw [hlast] at hx
      simp at hx hy
      rw [← hx, ← hy]
      exact hr
    · rw [List.head?_append_of_ne_nil l hlne]
      exact hhead
    · rw [List.length_append]
      omega

/-- A list with a repeated element splits around the two occurrences. -/
theorem not_nodup_split {l : List String} (h : ¬ l.Nodup) :
    ∃ x s t u, l = s ++ x :: (t ++ x :: u) := by
  induction l with
  | nil => exact absurd List.nodup_nil h
  | cons y l' ih =>
    rw [List.nodup_cons] at h
    push_neg at h
    by_cases hy : y ∈ l'
    · obtain ⟨s', t', hsplit⟩ := List.append_of_mem hy
      exact ⟨y, [], s', t', by rw [hsplit]; rfl⟩
    · obtain ⟨x, s, t, u, hsplit⟩ := ih (h hy)
      exact ⟨x, y :: s, t, u, by rw [hsplit]; rfl⟩

/-- Every closed walk of length at least two contains a simple cycle made of
its own nodes. -/
theorem closed_walk_simple_cycle {g : Graph} :
    ∀ (n : Nat) (w : List String), w.length ≤ n → 2 ≤ w.length →
      List.Chain' g.Edge w → w.head? = w.getLast? →
      ∃ c, g.IsSimpleCycle c ∧ c ⊆ w := by
  intro n
  induction n with
  | zero => intro w hle h2 _ _; omega
  | succ n ih =>
    intro w hle h2 hch hhl
    obtain ⟨x, w', hw⟩ : ∃ x w', w = x :: w' := by
      cases w with
      | nil => simp at h2
      | cons x w' => exact ⟨x, w', rfl⟩
    subst hw
    obtain ⟨y, w'', hw'⟩ : ∃ y w'', w' = y :: w'' := by
      cases w' with
      | nil => simp at h2
      | cons y w'' => exact ⟨y, w'', rfl⟩
    subst hw'
    set w : List String := x :: y :: w'' with hwdef
    have hwne : w ≠ [] := by simp [hwdef]
    have hlastx : w.getLast? = some x := by
      rw [← hhl]
      rfl
    set p : List String := w.dropLast with hpdef
    have hplen : p.length = w.length - 1 := List.length_dropLast w
    have hwp : w = p ++ [x] := by
      have h1 := List.dropLast_append_getLast hwne
      have h2' : w.getLast hwne = x := by
        have := List.getLast?_eq_getLast w hwne
        rw [hlastx] at this
        exact (Option.some_injective _ this).symm
      rw [h2'] at h1
      exact h1.symm
    have hphead : p = x :: (y :: w'').dropLast := by
      rw [hpdef, hwdef, List.dropLast_cons₂]
    by_cases hnd : p.Nodup
    · refine ⟨p, ⟨hnd, List.Chain'.prefix hch (List.dropLast_prefix w), ?_⟩, ?_⟩
      · have hpne : p ≠ [] := by rw [hphead]; simp
        refine ⟨x, p.getLast hpne, by rw [hphead]; rfl, List.getLast?_eq_getLast p hpne, ?_⟩
        have := (List.chain'_append.mp (hwp ▸ hch)).2.2
        apply this
        · rw [List.getLast?_eq_getLast p hpne]
          simp
        · simp
      · exact (List.dropLast_prefix w).subset
    · obtain ⟨x₀, s, t, u, hsplit⟩ := not_nodup_split hnd
      have hw' : x₀ :: (t ++ [x₀]) <:+: p := by
        refine ⟨s, u, ?_⟩
        rw [hsplit]
        simp
      have hpw : p <:+: w := (List.dropLast_prefix w).isInfix
      have hinf : x₀ :: (t ++ [x₀]) <:+: w := hw'.trans hpw
      have hlen' : (x₀ :: (t ++ [x₀])).length ≤ n := by
        have h1 : p.length = s.length + t.length + u.length + 2 := by
          rw [hsplit]
          simp
          omega
        have h2' : w.length ≤ n + 1 := hle
        simp
        omega
      have hcl : (x₀ :: (t ++ [x₀])).head? = (x₀ :: (t ++ [x₀])).getLast? := by
        have h1 : x₀ :: (t ++ [x₀]) = (x₀ :: t) ++ [x₀] := by simp
        rw [h1, List.getLast?_concat, List.head?_append_of_ne_nil _ (by simp)]
        rfl
      obtain ⟨c, hc, hsub⟩ := ih (x₀ :: (t ++ [x₀])) hlen' (by simp) ( List.Chain'.infix hch hinf) hcl
      exact ⟨c, hc, fun z hz => hinf.subset (hsub hz)⟩

/-- Every element of a chain either is the last element or has an outgoing
edge inside the chain. -/
theorem chain'_mem_out {R : String → String → Prop} :
    ∀ (c : List String) (x : String), List.Chain' R c → x ∈ c →
      c.getLast? = some x ∨ ∃ y, R x y := by
  intro c
  induction c with
  | nil => intro x _ hx; simp at hx
  | cons a rest ih =>
    intro x hch hx
    cases rest with
    | nil =>
      simp at hx
      subst hx
      exact Or.inl rfl
    | cons b rest' =>
      rw [List.chain'_cons] at hch
      rcases List.mem_cons.mp hx with hxa | hxr
      · subst hxa
        exact Or.inr ⟨b, hch.1⟩
      · rcases ih x hch.2 hxr with hl | he
        · left
          rw [List.getLast?_cons_cons]
          exact hl
        · exact Or.inr he

/-- The nodes of a simple cycle are nodes of the graph. -/
theorem simpleCycle_subset_nodes {g : Graph} {c : List String}
    (h : g.IsSimpleCycle c) : ∀ x ∈ c, x ∈ g.nodes := by
  obtain ⟨_, hch, hd, l, hhead, hlast, hedge⟩ := h
  intro x hx
  rcases chain'_mem_out c x hch hx with hl | ⟨y, hxy⟩
  · have : l = x := by
      rw [hlast] at hl
      exact Option.some_injective _ hl
    subst this
    exact (edge_mem_nodes hedge).1
  · exact (edge_mem_nodes hxy).1

/-- A graph with a cycle has a simple cycle through its own nodes. -/
theorem hasCycle_exists_simple {g : Graph} (h : g.HasCycle) :
    ∃ c, g.IsSimpleCycle c := by
  obtain ⟨a, htg⟩ := h
  obtain ⟨l, hch, hhead, hlast, hlen⟩ := transGen_exists_chain htg
  obtain ⟨c, hc, _⟩ :=
    closed_walk_simple_cycle l.length l le_rfl hlen hch (by rw [hhead, hlast])
  exact ⟨c, hc⟩

/-- The DFS cycle enumerator finds every closed simple extension of the path
it walks, given enough fuel. -/
theorem cyclesAux_complete {g : Graph} (start : String) :
    ∀ (s : List String) (fuel : Nat) (path : List String) (cur : String),
      path.head? = some start → path.getLast? = some cur →
      List.Chain' g.Edge (path ++ s) → (path ++ s).Nodup →
      (∀ l, (path ++ s).getLast? = some l → g.Edge l start) →
      s.length + 1 ≤ fuel →
      (path ++ s) ∈ cyclesAux g start fuel path cur := by
  intro s
  induction s with
  | nil =>
    intro fuel path cur hhead hlast hch _ hclose hfuel
    obtain ⟨f, rfl⟩ : ∃ f, fuel = f + 1 := by
      cases fuel with
      | zero => omega
      | succ f => exact ⟨f, rfl⟩
    rw [List.append_nil] at *
    have hedge : g.Edge cur start := hclose cur hlast
    rw [cyclesAux, List.mem_flatMap]
    exact ⟨start, hedge, by rw [if_pos rfl]; simp⟩
  | cons x rest ih =>
    intro fuel path cur hhead hlast hch hnd hclose hfuel
    obtain ⟨f, rfl⟩ : ∃ f, fuel = f + 1 := by
      cases fuel with
      | zero => omega
      | succ f => exact ⟨f, rfl⟩
    have hpne : path ≠ [] := by
      intro hnil
      rw [hnil] at hhead
      simp at hhead
    have hedgecx : g.Edge cur x := by
      have := (List.chain'_append.mp hch).2.2
      apply this
      · exact hlast
      · rfl
    have hxnp : x ∉ path := by
      rcases List.nodup_append.mp hnd with ⟨_, _, hdisj⟩
      intro hx
      exact hdisj hx (by simp)
    have hxns : x ≠ start := by
      intro heq
      apply hxnp
      rw [heq]
      exact List.mem_of_mem_head? (by rw [hhead]; rfl)
    have hstep : (path ++ [x]) ++ rest ∈ cyclesAux g start f (path ++ [x]) x := by
      apply ih f (path ++ [x]) x
      · rw [List.head?_append_of_ne_nil path hpne]
        exact hhead
      · exact List.getLast?_concat path
      · rw [List.append_assoc, List.singleton_append]
        exact hch
      · rw [List.append_assoc, List.singleton_append]
        exact hnd
      · intro l hl
        apply hclose
        rw [← hl, List.append_assoc, List.singleton_append]
      · simpa using hfuel
    rw [cyclesAux, List.mem_flatMap]
    refine ⟨x, hedgecx, ?_⟩
    rw [if_neg hxns, if_neg hxnp]
    have : path ++ x :: rest = (path ++ [x]) ++ rest := by
      rw [List.append_assoc, List.singleton_append]
    rw [this]
    exact hstep

/-- Completeness of the Cycle Detector: a graph with a cycle yields a
nonempty cycle list. -/
theorem hasCycle_findCycles_ne_nil {g : Graph} (h : g.HasCycle) :
    findCycles g ≠ [] := by
  obtain ⟨c, hc⟩ := hasCycle_exists_simple h
  obtain ⟨hnd, hch, hd, l, hhead, hlast, hedge⟩ := hc
  obtain ⟨tail, rfl⟩ : ∃ tail, c = hd :: tail := by
    cases c with
    | nil => simp at hhead
    | cons a tail =>
      have : a = hd := by simpa using hhead
      exact ⟨tail, by rw [this]⟩
  have hsub : ∀ x ∈ hd :: tail, x ∈ g.nodes :=
    simpleCycle_subset_nodes ⟨hnd, hch, hd, l, hhead, hlast, hedge⟩
  have hlenle : (hd :: tail).length ≤ g.nodes.length :=
    (List.subperm_of_subset hnd (fun x hx => hsub x hx)).length_le
  have hmem : ([hd] ++ tail) ∈ cyclesAux g hd g.nodes.length [hd] hd := by
    apply cyclesAux_complete hd tail g.nodes.length [hd] hd rfl rfl
    · rw [List.singleton_append]
      exact hch
    · rw [List.singleton_append]
      exact hnd
    · intro l' hl'
      rw [List.singleton_append] at hl'
      rw [hlast] at hl'
      have hll : l = l' := Option.some_injective _ hl'
      subst hll
      exact hedge
    · simpa using hlenle
  apply List.ne_nil_of_mem
  show (([hd] ++ tail) : List String) ∈ findCycles g
  unfold findCycles
  rw [List.mem_flatMap]
  exact ⟨hd, hsub hd (by simp), hmem⟩

end TaskAnalyzer

namespace TaskAnalyzer

/-- In a stalled round every remaining node steps to a remaining dependency. -/
theorem stepF_spec {g : Graph} {remaining : List String}
    (hstall : ∀ n ∈ remaining, ∃ d ∈ g.adj n, d ∈ remaining) :
    ∀ n ∈ remaining, g.Edge n (stepF g remaining n) ∧ stepF g remaining n ∈ remaining := by
  intro n hn
  obtain ⟨d, hd, hdr⟩ := hstall n hn
  have hsome : ((g.adj n).find? fun x => remaining.contains x).isSome := by
    rw [List.find?_isSome]
    exact ⟨d, hd, by simpa using hdr⟩
  obtain ⟨d', hd'⟩ := Option.isSome_iff_exists.mp hsome
  unfold stepF
  rw [hd']
  simp only [Option.getD_some]
  constructor
  · exact List.mem_of_find?_eq_some hd'
  · have := List.find?_some hd'
    simpa using this

/-- Iterating the step function stays inside the stalled set. -/
theorem stepF_iterate_mem {g : Graph} {remaining : List String}
    (hstall : ∀ n ∈ remaining, ∃ d ∈ g.adj n, d ∈ remaining) :
    ∀ (k : Nat) (n : String), n ∈ remaining → (stepF g remaining)^[k] n ∈ remaining := by
  intro k
  induction k with
  | zero => intro n hn; simpa using hn
  | succ k ih =>
    intro n hn
    rw [Function.iterate_succ_apply']
    exact (stepF_spec hstall _ (ih n hn)).2

/-- Iterating the step function at least once yields a transitive edge chain. -/
theorem stepF_iterate_transGen {g : Graph} {remaining : List String}
    (hstall : ∀ n ∈ remaining, ∃ d ∈ g.adj n, d ∈ remaining) :
    ∀ (k : Nat) (n : String), n ∈ remaining →
      Relation.TransGen g.Edge n ((stepF g remaining)^[k + 1] n) := by
  intro k
  induction k with
  | zero =>
    intro n hn
    rw [Function.iterate_one]
    exact Relation.TransGen.single (stepF_spec hstall n hn).1
  | succ k ih =>
    intro n hn
    rw [Function.iterate_succ_apply']
    exact Relation.TransGen.tail (ih n hn)
      (stepF_spec hstall _ (stepF_iterate_mem hstall (k + 1) n hn)).1

/-- A stalled Kahn round on a nonempty duplicate-free set exhibits a cycle. -/
theorem stall_hasCycle {g : Graph} {remaining : List String}
    (hne : remaining ≠ []) (hnd : remaining.Nodup)
    (hstall : ∀ n ∈ remaining, ∃ d ∈ g.adj n, d ∈ remaining) :
    g.HasCycle := by
  obtain ⟨n₀, hn₀⟩ : ∃ n₀, n₀ ∈ remaining := List.exists_mem_of_ne_nil remaining hne
  have hmaps : ∀ k ∈ Finset.range (remaining.length + 1),
      (stepF g remaining)^[k] n₀ ∈ remaining.toFinset := by
    intro k _
    rw [List.mem_toFinset]
    exact stepF_iterate_mem hstall k n₀ hn₀
  have hcard : remaining.toFinset.card < (Finset.range (remaining.length + 1)).card := by
    rw [List.toFinset_card_of_nodup hnd, Finset.card_range]
    omega
  obtain ⟨i, _, j, _, hij, heq⟩ :=
    Finset.exists_ne_map_eq_of_card_lt_of_maps_to hcard hmaps
  have key : ∀ a b : Nat, a < b →
      (stepF g remaining)^[a] n₀ = (stepF g remaining)^[b] n₀ → g.HasCycle := by
    intro a b hab hfeq
    obtain ⟨m, hm⟩ : ∃ m, b = m + 1 + a := ⟨b - a - 1, by omega⟩
    have hmem : (stepF g remaining)^[a] n₀ ∈ remaining := stepF_iterate_mem hstall a n₀ hn₀
    have htg := stepF_iterate_transGen hstall m _ hmem
    rw [← Function.iterate_add_apply, ← hm, ← hfeq] at htg
    exact ⟨(stepF g remaining)^[a] n₀, htg⟩
  rcases Nat.lt_or_ge i j with hlt | hge
  · exact key i j hlt heq
  · exact key j i (lt_of_le_of_ne hge (Ne.symm hij)) heq.symm

/-- Boolean containment on string lists agrees with membership. -/
theorem contains_true_iff_mem (l : List String) (a : String) :
    l.contains a = true ↔ a ∈ l := by
  simp

/-- An empty ready set means every remaining node keeps a dependency inside
the remaining set. -/
theorem readyOf_empty_stall {g : Graph} {remaining : List String}
    (h : readyOf g remaining = []) :
    ∀ n ∈ remaining, ∃ d ∈ g.adj n, d ∈ remaining := by
  intro n hn
  have hall : ((g.adj n).all fun d => !(remaining.contains d)) = false :=
    Bool.eq_false_iff.mpr (List.filter_eq_nil_iff.mp h n hn)
  obtain ⟨d, hd, hdc⟩ := List.all_eq_false.mp hall
  refine ⟨d, hd, ?_⟩
  rw [← contains_true_iff_mem]
  rcases Bool.eq_false_or_eq_true (remaining.contains d) with ht | hf
  · exact ht
  · rw [hf] at hdc
    simp at hdc

/-- On an acyclic graph Kahn's algorithm never stalls: with enough fuel it
returns an order. -/
theorem topoSortAux_some {g : Graph} (hacyc : ¬ g.HasCycle) :
    ∀ (fuel : Nat) (remaining : List String), remaining.Nodup →
      remaining.length ≤ fuel → ∃ ord, topoSortAux g fuel remaining = some ord := by
  intro fuel
  induction fuel with
  | zero =>
    intro remaining _ hlen
    cases remaining with
    | nil => exact ⟨[], rfl⟩
    | cons n rest => simp at hlen
  | succ fuel ih =>
    intro remaining hnd hlen
    cases remaining with
    | nil => exact ⟨[], rfl⟩
    | cons n rest =>
      simp only [topoSortAux]
      by_cases hready : (readyOf g (n :: rest)).isEmpty = true
      · exfalso
        rw [List.isEmpty_iff] at hready
        exact hacyc (stall_hasCycle (List.cons_ne_nil n rest) hnd (readyOf_empty_stall hready))
      · rw [Bool.not_eq_true] at hready
        rw [hready]
        simp only [Bool.false_eq_true, if_false]
        have hne : readyOf g (n :: rest) ≠ [] := by
          intro hnil
          rw [hnil] at hready
          simp at hready
        have hlt :
            ((n :: rest).filter fun m => !((readyOf g (n :: rest)).contains m)).length
              < (n :: rest).length := by
          rw [List.length_filter_lt_length_iff_exists]
          obtain ⟨r, hr⟩ := List.exists_mem_of_ne_nil _ hne
          have hrR : r ∈ n :: rest := (List.mem_filter.mp hr).1
          refine ⟨r, hrR, ?_⟩
          have hrc : (readyOf g (n :: rest)).contains r = true :=
            (contains_true_iff_mem _ r).mpr hr
          rw [hrc]
          simp
        obtain ⟨rest', hrest'⟩ :=
          ih ((n :: rest).filter fun m => !((readyOf g (n :: rest)).contains m))
            (hnd.filter _) (by omega)
        rw [hrest']
        exact ⟨_, rfl⟩

end TaskAnalyzer

namespace TaskAnalyzer

/-- A ready node has no dependency left in the remaining set. -/
theorem mem_readyOf_no_dep {g : Graph} {remaining : List String} {m : String}
    (h : m ∈ readyOf g remaining) : ∀ d ∈ g.adj m, d ∉ remaining := by
  intro d hd
  have hall := (List.mem_filter.mp h).2
  have := List.all_eq_true.mp hall d hd
  intro hdr
  rw [(contains_true_iff_mem remaining d).mpr hdr] at this
  simp at this

/-- Every remaining node is either ready or kept for the next round. -/
theorem remaining_split {g : Graph} (remaining : List String) :
    ∀ x ∈ remaining, x ∈ readyOf g remaining ∨
      x ∈ remaining.filter fun m => !((readyOf g remaining).contains m) := by
  intro x hx
  by_cases hr : x ∈ readyOf g remaining
  · exact Or.inl hr
  · right
    refine List.mem_filter.mpr ⟨hx, ?_⟩
    have hcf : (readyOf g remaining).contains x = false :=
      Bool.eq_false_iff.mpr fun hc => hr ((contains_true_iff_mem _ _).mp hc)
    rw [hcf]
    rfl

/-- The kept nodes are exactly those remaining nodes that are not ready. -/
theorem kept_filter_eq {g : Graph} (remaining : List String) :
    (remaining.filter fun m => !((readyOf g remaining).contains m)) =
      remaining.filter fun m => !((g.adj m).all fun d => !(remaining.contains d)) := by
  apply List.filter_congr
  intro x hx
  have hcontains : (readyOf g remaining).contains x =
      ((g.adj x).all fun d => !(remaining.contains d)) := by
    rcases Bool.eq_false_or_eq_true ((g.adj x).all fun d => !(remaining.contains d)) with ht | hf
    · rw [ht]
      exact (contains_true_iff_mem _ _).mpr (List.mem_filter.mpr ⟨hx, ht⟩)
    · rw [hf]
      refine Bool.eq_false_iff.mpr fun hc => ?_
      have := (List.mem_filter.mp ((contains_true_iff_mem _ _).mp hc)).2
      rw [hf] at this
      simp at this
  rw [hcontains]

/-- Kahn's result is a permutation of the remaining nodes in which every
dependency still in the remaining set is placed strictly earlier. -/
theorem topoSortAux_spec {g : Graph} :
    ∀ (fuel : Nat) (remaining ord : List String),
      topoSortAux g fuel remaining = some ord →
      ord.Perm remaining ∧
        ∀ pre m post, ord = pre ++ m :: post →
          ∀ d ∈ g.adj m, d ∈ remaining → d ∈ pre := by
  intro fuel
  induction fuel with
  | zero =>
    intro remaining ord heq
    cases remaining with
    | nil =>
      have hord : ord = [] := by
        have : (some [] : Option (List String)) = some ord := heq
        simpa using this.symm
      subst hord
      refine ⟨List.Perm.refl [], ?_⟩
      intro pre m post hdec
      exact absurd hdec.symm (by simp)
    | cons n rest => simp [topoSortAux] at heq
  | succ fuel ih =>
    intro remaining ord heq
    cases remaining with
    | nil =>
      have hord : ord = [] := by
        have : (some [] : Option (List String)) = some ord := heq
        simpa using this.symm
      subst hord
      refine ⟨List.Perm.refl [], ?_⟩
      intro pre m post hdec
      exact absurd hdec.symm (by simp)
    | cons n rest =>
      simp only [topoSortAux] at heq
      by_cases hready : (readyOf g (n :: rest)).isEmpty = true
      · rw [hready] at heq
        simp at heq
      · rw [Bool.not_eq_true] at hready
        rw [hready] at heq
        simp only [Bool.false_eq_true, if_false] at heq
        rcases hrec : topoSortAux g fuel
            ((n :: rest).filter fun m => !((readyOf g (n :: rest)).contains m)) with _ | rest''
        · rw [hrec] at heq
          simp at heq
        · rw [hrec] at heq
          simp only [Option.some_inj] at heq
          obtain ⟨hperm', hord'⟩ := ih _ _ hrec
          subst heq
          constructor
          · refine ((readyOf g (n :: rest)).perm_append_left_iff.mpr hperm').trans ?_
            rw [kept_filter_eq]
            exact List.filter_append_perm _ (n :: rest)
          · intro pre m post hdec d hd hdR
            rcases List.append_eq_append_iff.mp hdec.symm with ⟨a', hc, hb⟩ | ⟨c', hpre, hrest⟩
            · cases a' with
              | nil =>
                rw [List.append_nil] at hc
                rw [List.nil_append] at hb
                rcases remaining_split (n :: rest) d hdR with hdready | hdkept
                · rw [hc] at hdready
                  exact hdready
                · have := hord' [] m post hb.symm d hd hdkept
                  simp at this
              | cons x a'' =>
                have hm : m = x := by
                  have := congrArg List.head? hb
                  simpa using this
                subst hm
                have hmready : m ∈ readyOf g (n :: rest) := by
                  rw [hc]
                  exact List.mem_append.mpr (Or.inr (by simp))
                exact absurd hdR (mem_readyOf_no_dep hmready d hd)
            · rcases remaining_split (n :: rest) d hdR with hdready | hdkept
              · rw [hpre]
                exact List.mem_append.mpr (Or.inl hdready)
              · rw [hpre]
                exact List.mem_append.mpr (Or.inr (hord' c' m post hrest d hd hdkept))

end TaskAnalyzer

namespace TaskAnalyzer

/-- The keys of the accumulated level map are the processed nodes in order. -/
theorem foldl_levelStep_keys {g : Graph} :
    ∀ (order : List String) (acc : List (String × Nat)),
      (order.foldl (levelStep g) acc).map Prod.fst = acc.map Prod.fst ++ order := by
  intro order
  induction order with
  | nil => intro acc; simp
  | cons n order' ih =>
    intro acc
    rw [List.foldl_cons, ih]
    unfold levelStep
    simp

/-- The level fold only appends bindings. -/
theorem foldl_levelStep_ext {g : Graph} :
    ∀ (order : List String) (acc : List (String × Nat)),
      ∃ ext, order.foldl (levelStep g) acc = acc ++ ext := by
  intro order
  induction order with
  | nil => intro acc; exact ⟨[], by simp⟩
  | cons n order' ih =>
    intro acc
    obtain ⟨ext, hext⟩ := ih (levelStep g acc n)
    refine ⟨[(n, levelValue g acc n)] ++ ext, ?_⟩
    rw [List.foldl_cons, hext]
    unfold levelStep
    rw [List.append_assoc]

/-- Once a node has a level, later rounds do not change it. -/
theorem foldl_levelStep_lookup_stable {g : Graph} (order : List String)
    {acc : List (String × Nat)} {k : String} {v : Nat}
    (h : acc.lookup k = some v) :
    (order.foldl (levelStep g) acc).lookup k = some v := by
  obtain ⟨ext, hext⟩ := foldl_levelStep_ext order acc
  rw [hext, List.lookup_append, h]
  rfl

/-- A key outside an association list's keys has no binding. -/
theorem lookup_eq_none_of_not_mem_keys :
    ∀ (l : List (String × Nat)) (k : String),
      k ∉ l.map Prod.fst → l.lookup k = none := by
  intro l
  induction l with
  | nil => intro k _; rfl
  | cons p l' ih =>
    intro k hk
    rw [List.map_cons, List.mem_cons] at hk
    push_neg at hk
    cases p with
    | mk a b =>
      rw [List.lookup_cons]
      have hbeq : (k == a) = false := beq_eq_false_iff_ne.mpr hk.1
      rw [hbeq]
      exact ih k hk.2

/-- A key among an association list's keys has a binding. -/
theorem lookup_isSome_of_mem_keys :
    ∀ (l : List (String × Nat)) (k : String),
      k ∈ l.map Prod.fst → (l.lookup k).isSome = true := by
  intro l
  induction l with
  | nil => intro k hk; simp at hk
  | cons p l' ih =>
    intro k hk
    cases p with
    | mk a b =>
      rw [List.lookup_cons]
      rcases Bool.eq_false_or_eq_true (k == a) with ht | hf
      · rw [ht]
        rfl
      · rw [hf]
        apply ih
        rw [List.map_cons, List.mem_cons] at hk
        rcases hk with hka | hk'
        · exact absurd hka (by simpa using beq_eq_false_iff_ne.mp hf)
        · exact hk'

/-- The binding the level fold creates for a node not processed before: its
level is computed from the levels of the earlier prefix. -/
theorem computeLevels_binding (g : Graph) (pre post : List String) (n : String)
    (hnp : n ∉ pre) :
    (computeLevels g (pre ++ n :: post)).lookup n =
      some (levelValue g (computeLevels g pre) n) := by
  unfold computeLevels
  rw [List.foldl_append, List.foldl_cons]
  apply foldl_levelStep_lookup_stable post
  set A := List.foldl (levelStep g) [] pre with hA
  show (levelStep g A n).lookup n = some (levelValue g A n)
  rw [show levelStep g A n = A ++ [(n, levelValue g A n)] from rfl]
  rw [List.lookup_append]
  have hkeys : A.map Prod.fst = pre := by
    rw [hA]
    simpa using foldl_levelStep_keys (g := g) pre []
  have hnone : A.lookup n = none :=
    lookup_eq_none_of_not_mem_keys A n (by rw [hkeys]; exact hnp)
  rw [hnone, Option.none_or]
  simp [List.lookup]

/-- Every node of the processed order receives a level. -/
theorem computeLevels_total {g : Graph} {order : List String} {k : String}
    (h : k ∈ order) : ((computeLevels g order).lookup k).isSome = true := by
  apply lookup_isSome_of_mem_keys
  unfold computeLevels
  rw [foldl_levelStep_keys (g := g) order []]
  simpa using h

end TaskAnalyzer

namespace TaskAnalyzer

/-- With duplicate-free ids, looking a task's id up in the registry finds
that very record. -/
theorem find?_id_eq_of_nodup :
    ∀ (tasks : List TaskRecord), (tasks.map TaskRecord.id).Nodup →
      ∀ t ∈ tasks, tasks.find? (fun x => x.id == t.id) = some t := by
  intro tasks
  induction tasks with
  | nil => intro _ t ht; simp at ht
  | cons a rest ih =>
    intro hnd t ht
    rw [List.map_cons, List.nodup_cons] at hnd
    rcases List.mem_cons.mp ht with hta | htr
    · subst hta
      rw [List.find?_cons_of_pos]
      simp
    · have hne : (a.id == t.id) = false := by
        rw [beq_eq_false_iff_ne]
        intro hcon
        exact hnd.1 (hcon ▸ List.mem_map_of_mem TaskRecord.id htr)
      rw [List.find?_cons_of_neg _ (by rw [hne]; simp)]
      exact ih hnd.2 t htr

/-- With duplicate-free ids, a registered task's successors in the graph are
exactly its dependencies. -/
theorem adj_of_mem {tasks : List TaskRecord} {t : TaskRecord}
    (hids : (tasks.map TaskRecord.id).Nodup) (ht : t ∈ tasks) :
    (buildGraph tasks).adj t.id = t.deps := by
  unfold Graph.adj
  rw [show (buildGraph tasks).tasks = tasks from rfl]
  rw [find?_id_eq_of_nodup tasks hids t ht]

/-- A dependency placed earlier in the processed order gets a strictly
smaller level than its dependent. -/
theorem computeLevels_lt {g : Graph} {pre post : List String} {n d : String}
    (hnd : (pre ++ n :: post).Nodup)
    (hd : d ∈ g.adj n) (hdpre : d ∈ pre) :
    ∀ la ld, (computeLevels g (pre ++ n :: post)).lookup n = some la →
      (computeLevels g (pre ++ n :: post)).lookup d = some ld → ld < la := by
  intro la ld hla hld
  have hnpre : n ∉ pre := by
    rcases List.nodup_append.mp hnd with ⟨_, _, hdisj⟩
    intro hn
    exact hdisj hn (by simp)
  have hbind := computeLevels_binding g pre post n hnpre
  rw [hla] at hbind
  have hla' : la = levelValue g (computeLevels g pre) n :=
    Option.some_injective _ hbind
  have hdpre_some : ((computeLevels g pre).lookup d).isSome = true :=
    computeLevels_total hdpre
  obtain ⟨v, hv⟩ := Option.isSome_iff_exists.mp hdpre_some
  have hfinal : (computeLevels g (pre ++ n :: post)).lookup d = some v := by
    unfold computeLevels
    rw [List.foldl_append]
    exact foldl_levelStep_lookup_stable (n :: post) hv
  have hvld : v = ld := by
    rw [hfinal] at hld
    exact Option.some_injective _ hld
  subst hvld
  have hmem : v ∈ (g.adj n).filterMap fun x => (computeLevels g pre).lookup x :=
    List.mem_filterMap.mpr ⟨d, hd, hv⟩
  unfold levelValue at hla'
  rcases hmax : ((g.adj n).filterMap fun x => (computeLevels g pre).lookup x).max? with _ | m
  · rw [List.max?_eq_none_iff] at hmax
    rw [hmax] at hmem
    simp at hmem
  · have hle : v ≤ m := (List.max?_eq_some_iff'.mp hmax).2 v hmem
    rw [hmax] at hla'
    simp at hla'
    omega

/-- On acyclic inputs the Level Assigner is the fold over the topological
order. -/
theorem assignLevels_acyclic {g : Graph} {ord : List String}
    (hcyc : findCycles g = []) (htopo : g.topoSort = some ord) :
    assignLevels g (findCycles g) = computeLevels g ord := by
  unfold assignLevels
  rw [hcyc, htopo]
  rfl

/-- On nonempty input the pipeline fields of the analysis result are the
stage functions applied to the graph as built. -/
theorem analyze_eqs {tasks : List TaskRecord} (hne : tasks ≠ []) :
    (analyze tasks).circular_dependencies = findCycles (buildGraph tasks) ∧
      (analyze tasks).levels = assignLevels (buildGraph tasks) (findCycles (buildGraph tasks)) ∧
      (analyze tasks).errors = unresolvedErrors (buildGraph tasks) ∧
      (analyze tasks).success = (unresolvedErrors (buildGraph tasks)).isEmpty ∧
      (analyze tasks).critical_path = criticalPath (buildGraph tasks) ∧
      (analyze tasks).bottleneck_tasks = bottleneckRanking (buildGraph tasks) ∧
      (analyze tasks).statistics.max_dependency_depth =
        (match ((assignLevels (buildGraph tasks) (findCycles (buildGraph tasks))).map Prod.snd).max? with
          | some m => m + 1
          | none => 0) := by
  have hE : tasks.isEmpty = false := by rwa [List.isEmpty_eq_false]
  unfold analyze
  rw [hE]
  simp

end TaskAnalyzer

namespace TaskAnalyzer

/-- An empty cycle list certifies acyclicity. -/
theorem acyclic_of_findCycles_nil {g : Graph} (h : findCycles g = []) : ¬ g.HasCycle :=
  fun hc => hasCycle_findCycles_ne_nil hc h

/-- C1: on an all-resolved, acyclic input set (ids unique per the registry
invariant of spec section 3) the Level Assigner gives every task a level
(a natural number, hence at least 0), every dependency edge `A -> B`
satisfies `level(A) > level(B)`, and a task with no dependencies gets
level 0. -/
theorem claim_acyclic_levels (tasks : List TaskRecord)
    (hids : (tasks.map TaskRecord.id).Nodup)
    (hres : ∀ t ∈ tasks, ∀ d ∈ t.deps, d ∈ tasks.map TaskRecord.id)
    (hacyc : ¬ (buildGraph tasks).HasCycle) :
    (∀ t ∈ tasks, ∃ lvl, ((analyze tasks).levels).lookup t.id = some lvl ∧ 0 ≤ lvl) ∧
      (∀ t ∈ tasks, ∀ d ∈ t.deps, ∀ la ld,
        ((analyze tasks).levels).lookup t.id = some la →
        ((analyze tasks).levels).lookup d = some ld → ld < la) ∧
      (∀ t ∈ tasks, t.deps = [] → ((analyze tasks).levels).lookup t.id = some 0) := by
  by_cases hE : tasks = []
  · subst hE
    refine ⟨?_, ?_, ?_⟩ <;> intro t ht <;> simp at ht
  · set g := buildGraph tasks with hg
    have hreg : g.registeredIds = tasks.map TaskRecord.id := rfl
    have hcyc : findCycles g = [] := acyclic_findCycles_nil hacyc
    obtain ⟨ord, htopo⟩ :=
      topoSortAux_some hacyc g.registeredIds.length g.registeredIds
        (by rw [hreg]; exact hids) le_rfl
    have htopo' : g.topoSort = some ord := htopo
    obtain ⟨hperm, hord⟩ := topoSortAux_spec _ _ _ htopo
    have hlv : (analyze tasks).levels = computeLevels g ord := by
      rw [(analyze_eqs hE).2.1, assignLevels_acyclic hcyc htopo']
    have hordnd : ord.Nodup := (hperm.nodup_iff).mpr (by rw [hreg]; exact hids)
    have hmem_ord : ∀ t ∈ tasks, t.id ∈ ord := by
      intro t ht
      rw [hperm.mem_iff, hreg]
      exact List.mem_map_of_mem TaskRecord.id ht
    refine ⟨?_, ?_, ?_⟩
    · intro t ht
      rw [hlv]
      obtain ⟨lvl, hlvl⟩ :=
        Option.isSome_iff_exists.mp (computeLevels_total (g := g) (hmem_ord t ht))
      exact ⟨lvl, hlvl, Nat.zero_le _⟩
    · intro t ht d hd la ld hla hld
      rw [hlv] at hla hld
      obtain ⟨pre, post, hdec⟩ := List.append_of_mem (hmem_ord t ht)
      have hadj : d ∈ g.adj t.id := by
        rw [hg, adj_of_mem hids ht]
        exact hd
      have hdreg : d ∈ g.registeredIds := by
        rw [hreg]
        exact hres t ht d hd
      have hdpre : d ∈ pre := hord pre t.id post hdec d hadj hdreg
      rw [hdec] at hla hld
      exact computeLevels_lt (hdec ▸ hordnd) hadj hdpre la ld hla hld
    · intro t ht hdeps
      rw [hlv]
      obtain ⟨pre, post, hdec⟩ := List.append_of_mem (hmem_ord t ht)
      have hnpre : t.id ∉ pre := by
        have hnd2 := hdec ▸ hordnd
        rcases List.nodup_append.mp hnd2 with ⟨_, _, hdisj⟩
        intro hc
        exact hdisj hc (by simp)
      have hbind := computeLevels_binding g pre post t.id hnpre
      rw [hdec, hbind]
      have hadj0 : g.adj t.id = [] := by
        rw [hg, adj_of_mem hids ht, hdeps]
      congr 1
      unfold levelValue
      rw [hadj0]
      rfl

/-- Witness for C1 at Scenario A of the spec: task y gets a level, the edge
from y to x strictly decreases the level, and the root x gets level 0. -/
theorem claim_acyclic_levels_witness :
    (∃ lvl, ((analyze scenarioA).levels).lookup "y" = some lvl ∧ 0 ≤ lvl) ∧
      ((analyze scenarioA).levels).lookup "x" = some 0 := by
  have h := claim_acyclic_levels scenarioA (by decide) (by decide)
    (acyclic_of_findCycles_nil (by decide))
  exact ⟨h.1 taskY (by decide), h.2.2 taskX (by decide) (by decide)⟩

end TaskAnalyzer

namespace TaskAnalyzer

/-- A transitive chain contains at least one edge. -/
theorem transGen_edge {R : String → String → Prop} {a b : String}
    (h : Relation.TransGen R a b) : ∃ x y, R x y := by
  induction h with
  | single h => exact ⟨_, _, h⟩
  | tail _ h _ => exact ⟨_, _, h⟩

/-- A graph with a cycle was built from at least one task. -/
theorem hasCycle_tasks_ne_nil {tasks : List TaskRecord}
    (h : (buildGraph tasks).HasCycle) : tasks ≠ [] := by
  intro hnil
  subst hnil
  obtain ⟨a, htg⟩ := h
  obtain ⟨x, y, hxy⟩ := transGen_edge htg
  unfold Graph.Edge Graph.adj at hxy
  simp [buildGraph] at hxy

/-- With cycles present the Level Assigner returns the empty map. -/
theorem assignLevels_cyclic {g : Graph} (h : findCycles g ≠ []) :
    assignLevels g (findCycles g) = [] := by
  unfold assignLevels
  rw [List.isEmpty_eq_false.mpr h]
  simp

/-- C2: a cyclic input yields an empty level map, `max_dependency_depth` 0,
and a nonempty `circular_dependencies` list. -/
theorem claim_cyclic_no_levels (tasks : List TaskRecord)
    (hcyc : (buildGraph tasks).HasCycle) :
    (analyze tasks).levels = [] ∧
      (analyze tasks).statistics.max_dependency_depth = 0 ∧
      (analyze tasks).circular_dependencies ≠ [] := by
  have hne : tasks ≠ [] := hasCycle_tasks_ne_nil hcyc
  have hfc : findCycles (buildGraph tasks) ≠ [] := hasCycle_findCycles_ne_nil hcyc
  obtain ⟨hc, hl, _, _, _, _, hm⟩ := analyze_eqs hne
  have hlv : (analyze tasks).levels = [] := by
    rw [hl, assignLevels_cyclic hfc]
  refine ⟨hlv, ?_, ?_⟩
  · rw [hm, assignLevels_cyclic hfc]
    rfl
  · rw [hc]
    exact hfc

/-- Witness for C2 at Scenario C (the self-loop task). -/
theorem claim_cyclic_no_levels_witness :
    (analyze [taskSelf]).levels = [] ∧
      (analyze [taskSelf]).statistics.max_dependency_depth = 0 ∧
      (analyze [taskSelf]).circular_dependencies ≠ [] :=
  claim_cyclic_no_levels [taskSelf]
    ⟨"a", Relation.TransGen.single (by decide)⟩

/-- C5: a task listing its own id as a dependency is registered in the graph
and the degenerate cycle `[id]` of length 1 appears in the reported cycles. -/
theorem claim_self_loop (tasks : List TaskRecord) (t : TaskRecord)
    (hids : (tasks.map TaskRecord.id).Nodup)
    (ht : t ∈ tasks) (hself : t.id ∈ t.deps) :
    t.id ∈ (buildGraph tasks).registeredIds ∧
      [t.id] ∈ (analyze tasks).circular_dependencies := by
  have hne : tasks ≠ [] := List.ne_nil_of_mem ht
  have hedge : (buildGraph tasks).Edge t.id t.id := by
    show t.id ∈ (buildGraph tasks).adj t.id
    rw [adj_of_mem hids ht]
    exact hself
  have hnode : t.id ∈ (buildGraph tasks).nodes := (edge_mem_nodes hedge).1
  refine ⟨List.mem_map_of_mem TaskRecord.id ht, ?_⟩
  rw [(analyze_eqs hne).1]
  unfold findCycles
  rw [List.mem_flatMap]
  refine ⟨t.id, hnode, ?_⟩
  have hfuel : 1 ≤ (buildGraph tasks).nodes.length := by
    cases hnn : (buildGraph tasks).nodes with
    | nil => rw [hnn] at hnode; simp at hnode
    | cons _ _ => simp
  have hmem := cyclesAux_complete (g := buildGraph tasks) t.id []
    (buildGraph tasks).nodes.length [t.id] t.id rfl rfl
    (by rw [List.append_nil]; exact List.chain'_singleton t.id)
    (by rw [List.append_nil]; simp)
    (by
      intro l hl
      rw [List.append_nil] at hl
      have : t.id = l := by simpa using hl
      rw [← this]
      exact hedge)
    (by simpa using hfuel)
  rw [List.append_nil] at hmem
  exact hmem

/-- Witness for C5 at Scenario C. -/
theorem claim_self_loop_witness :
    "a" ∈ (buildGraph [taskSelf]).registeredIds ∧
      ["a"] ∈ (analyze [taskSelf]).circular_dependencies :=
  claim_self_loop [taskSelf] taskSelf (by decide) (by decide) (by decide)

/-- C7: the analysis is a pure function: equal inputs give identical
statistics, cycle lists, level maps, and results. -/
theorem claim_deterministic (ts₁ ts₂ : List TaskRecord) (h : ts₁ = ts₂) :
    (analyze ts₁).statistics = (analyze ts₂).statistics ∧
      (analyze ts₁).circular_dependencies = (analyze ts₂).circular_dependencies ∧
      (analyze ts₁).levels = (analyze ts₂).levels ∧
      analyze ts₁ = analyze ts₂ := by
  subst h
  exact ⟨rfl, rfl, rfl, rfl⟩

/-- Witness for C7: two runs on Scenario A agree. -/
theorem claim_deterministic_witness :
    analyze scenarioA = analyze scenarioA :=
  (claim_deterministic scenarioA scenarioA rfl).2.2.2

end TaskAnalyzer

namespace TaskAnalyzer

/-- The error block of one task never counts an error for a missing id that
the block's dependency list does not contain. -/
theorem count_unresolved_zero_of_not_mem {g : Graph} {a d : String}
    {l : List String} (hd : d ∉ l) :
    (l.filterMap fun x =>
      if g.registeredIds.contains x then none
      else some (AnalysisError.UnresolvedDependency a x)).count
        (AnalysisError.UnresolvedDependency a d) = 0 := by
  rw [List.count_eq_zero]
  intro hmem
  obtain ⟨x, hx, hfx⟩ := List.mem_filterMap.mp hmem
  by_cases hc : g.registeredIds.contains x
  · rw [if_pos hc] at hfx
    simp at hfx
  · rw [if_neg hc] at hfx
    have hxd : x = d := by simpa using hfx
    exact hd (hxd ▸ hx)

/-- The error block of one task never counts an error attributed to a
different task. -/
theorem count_unresolved_diff_task {g : Graph} {a b d : String}
    (hab : a ≠ b) (l : List String) :
    (l.filterMap fun x =>
      if g.registeredIds.contains x then none
      else some (AnalysisError.UnresolvedDependency a x)).count
        (AnalysisError.UnresolvedDependency b d) = 0 := by
  rw [List.count_eq_zero]
  intro hmem
  obtain ⟨x, hx, hfx⟩ := List.mem_filterMap.mp hmem
  by_cases hc : g.registeredIds.contains x
  · rw [if_pos hc] at hfx
    simp at hfx
  · rw [if_neg hc] at hfx
    simp at hfx
    exact hab hfx.1

/-- One task's error block counts its own dangling reference exactly once. -/
theorem count_unresolved_one {g : Graph} {a d : String}
    (hnr : g.registeredIds.contains d = false) :
    ∀ (l : List String), l.Nodup → d ∈ l →
      (l.filterMap fun x =>
        if g.registeredIds.contains x then none
        else some (AnalysisError.UnresolvedDependency a x)).count
          (AnalysisError.UnresolvedDependency a d) = 1 := by
  intro l
  induction l with
  | nil => intro _ h; simp at h
  | cons x l' ih =>
    intro hnd hdl
    rw [List.nodup_cons] at hnd
    rw [List.filterMap_cons]
    by_cases hxd : x = d
    · subst hxd
      rw [if_neg (by rw [hnr]; simp)]
      rw [List.count_cons_self]
      rw [count_unresolved_zero_of_not_mem hnd.1]
    · have hdl' : d ∈ l' := by
        rcases List.mem_cons.mp hdl with h1 | h2
        · exact absurd h1.symm hxd
        · exact h2
      by_cases hc : g.registeredIds.contains x
      · rw [if_pos hc]
        exact ih hnd.2 hdl'
      · rw [if_neg hc]
        rw [List.count_cons_of_ne (by
          intro hcon
          injection hcon with h1 h2
          exact hxd h2.symm)]
        exact ih hnd.2 hdl'

/-- Tasks whose id differs from `b` contribute no error attributed to `b`. -/
theorem count_unresolved_flatMap_zero {g : Graph} {b d : String} :
    ∀ (ts : List TaskRecord), b ∉ ts.map TaskRecord.id →
      (ts.flatMap fun t' => t'.deps.filterMap fun x =>
        if g.registeredIds.contains x then none
        else some (AnalysisError.UnresolvedDependency t'.id x)).count
        (AnalysisError.UnresolvedDependency b d) = 0 := by
  intro ts
  induction ts with
  | nil => intro _; rfl
  | cons a rest ih =>
    intro hb
    rw [List.flatMap_cons, List.count_append]
    rw [List.map_cons, List.mem_cons] at hb
    push_neg at hb
    rw [count_unresolved_diff_task (Ne.symm hb.1) _, ih hb.2]

/-- Over a duplicate-free task list, the dangling reference of one task is
counted exactly once in the pooled error list. -/
theorem count_unresolved_flatMap_one {g : Graph} {t : TaskRecord} {d : String}
    (hd : d ∈ t.deps) (hnr : g.registeredIds.contains d = false) :
    ∀ (ts : List TaskRecord), (ts.map TaskRecord.id).Nodup → t ∈ ts →
      (ts.flatMap fun t' => t'.deps.filterMap fun x =>
        if g.registeredIds.contains x then none
        else some (AnalysisError.UnresolvedDependency t'.id x)).count
        (AnalysisError.UnresolvedDependency t.id d) = 1 := by
  intro ts
  induction ts with
  | nil => intro _ h; simp at h
  | cons a rest ih =>
    intro hnd hmem
    rw [List.flatMap_cons, List.count_append]
    rw [List.map_cons, List.nodup_cons] at hnd
    rcases List.mem_cons.mp hmem with hta | htr
    · subst hta
      have hdeps : t.deps.Nodup := by
        unfold TaskRecord.deps
        exact List.nodup_dedup _
      rw [count_unresolved_one hnr t.deps hdeps hd]
      rw [count_unresolved_flatMap_zero rest hnd.1]
    · have hne : a.id ≠ t.id := fun hcon =>
        hnd.1 (hcon ▸ List.mem_map_of_mem TaskRecord.id htr)
      rw [count_unresolved_diff_task hne _, ih hnd.2 htr]

/-- The Validator collects exactly one `UnresolvedDependency(task, missing)`
for a dangling reference. -/
theorem unresolvedErrors_count {tasks : List TaskRecord} {t : TaskRecord} {d : String}
    (hids : (tasks.map TaskRecord.id).Nodup) (ht : t ∈ tasks) (hd : d ∈ t.deps)
    (hmiss : d ∉ tasks.map TaskRecord.id) :
    (unresolvedErrors (buildGraph tasks)).count
      (AnalysisError.UnresolvedDependency t.id d) = 1 := by
  have hnr : (buildGraph tasks).registeredIds.contains d = false :=
    Bool.eq_false_iff.mpr fun hc => hmiss ((contains_true_iff_mem _ _).mp hc)
  exact count_unresolved_flatMap_one hd hnr tasks hids ht

end TaskAnalyzer

namespace TaskAnalyzer

/-- C3: a dangling reference yields exactly one `UnresolvedDependency` error
naming the referencing task and the missing id, flips `success` to false,
and the remaining stages still run on the graph exactly as built. -/
theorem claim_unresolved_dependency (tasks : List TaskRecord) (t : TaskRecord)
    (d : String) (hids : (tasks.map TaskRecord.id).Nodup) (ht : t ∈ tasks)
    (hd : d ∈ t.deps) (hmiss : d ∉ tasks.map TaskRecord.id) :
    (analyze tasks).errors.count (AnalysisError.UnresolvedDependency t.id d) = 1 ∧
      (analyze tasks).success = false ∧
      (analyze tasks).circular_dependencies = findCycles (buildGraph tasks) ∧
      (analyze tasks).levels =
        assignLevels (buildGraph tasks) (findCycles (buildGraph tasks)) ∧
      (analyze tasks).critical_path = criticalPath (buildGraph tasks) ∧
      (analyze tasks).bottleneck_tasks = bottleneckRanking (buildGraph tasks) := by
  have hne : tasks ≠ [] := List.ne_nil_of_mem ht
  obtain ⟨hc, hl, herr, hsucc, hcp, hbt, _⟩ := analyze_eqs hne
  have hcount := unresolvedErrors_count hids ht hd hmiss
  refine ⟨by rw [herr]; exact hcount, ?_, hc, hl, hcp, hbt⟩
  rw [hsucc]
  have hmem : AnalysisError.UnresolvedDependency t.id d ∈
      unresolvedErrors (buildGraph tasks) := by
    by_contra hnm
    rw [List.count_eq_zero.mpr hnm] at hcount
    simp at hcount
  exact List.isEmpty_eq_false.mpr (List.ne_nil_of_mem hmem)

/-- Witness for C3 at Scenario D (one task referencing a missing id). -/
theorem claim_unresolved_dependency_witness :
    (analyze [taskMissing]).errors.count
        (AnalysisError.UnresolvedDependency "m" "ghost") = 1 ∧
      (analyze [taskMissing]).success = false :=
  ⟨(claim_unresolved_dependency [taskMissing] taskMissing "ghost"
      (by decide) (by decide) (by decide) (by decide)).1,
   (claim_unresolved_dependency [taskMissing] taskMissing "ghost"
      (by decide) (by decide) (by decide) (by decide)).2.1⟩

/-- C6: the analysis is a total function into the result record: `success`
is true exactly on nonempty inputs without unresolved references, the
collected error list is exactly the Validator's output, and the reported
cycle list is nonempty exactly when the graph really has a cycle, so every
failure mode shows up in the result fields rather than escaping. -/
theorem claim_failures_represented (tasks : List TaskRecord) :
    ((analyze tasks).success = true ↔
      (tasks ≠ [] ∧ unresolvedErrors (buildGraph tasks) = [])) ∧
      ((analyze tasks).circular_dependencies ≠ [] ↔ (buildGraph tasks).HasCycle) ∧
      ((analyze tasks).errors =
        if tasks.isEmpty then [] else unresolvedErrors (buildGraph tasks)) := by
  by_cases hE : tasks = []
  · subst hE
    refine ⟨?_, ?_, ?_⟩
    · constructor
      · intro h
        have : (analyze ([] : List TaskRecord)).success = false := rfl
        rw [this] at h
        simp at h
      · rintro ⟨h, _⟩
        exact absurd rfl h
    · constructor
      · intro h
        have : (analyze ([] : List TaskRecord)).circular_dependencies = [] := rfl
        exact absurd this h
      · intro h
        exact absurd rfl (hasCycle_tasks_ne_nil h)
    · rfl
  · obtain ⟨hc, _, herr, hsucc, _, _, _⟩ := analyze_eqs hE
    refine ⟨?_, ?_, ?_⟩
    · rw [hsucc]
      constructor
      · intro h
        exact ⟨hE, List.isEmpty_iff.mp h⟩
      · rintro ⟨_, h⟩
        exact List.isEmpty_iff.mpr h
    · rw [hc]
      constructor
      · intro h
        obtain ⟨c, hcm⟩ := List.exists_mem_of_ne_nil _ h
        exact findCycles_sound hcm
      · exact hasCycle_findCycles_ne_nil
    · rw [herr, if_neg (by rw [List.isEmpty_eq_false.mpr hE]; simp)]

end TaskAnalyzer

namespace TaskAnalyzer

/-- The ranking order is transitive. -/
theorem rankLE_trans : ∀ a b c : String × Nat,
    rankLE a b = true → rankLE b c = true → rankLE a c = true := by
  intro a b c hab hbc
  unfold rankLE at *
  simp only [Bool.or_eq_true, Bool.and_eq_true, decide_eq_true_eq, beq_iff_eq] at *
  rcases hab with h1 | ⟨h1, h2⟩
  · rcases hbc with h3 | ⟨h3, _⟩
    · left; omega
    · left; omega
  · rcases hbc with h3 | ⟨h3, h4⟩
    · left; omega
    · right
      exact ⟨by omega, le_trans h2 h4⟩

/-- The ranking order is total. -/
theorem rankLE_total : ∀ a b : String × Nat,
    (rankLE a b || rankLE b a) = true := by
  intro a b
  unfold rankLE
  simp only [Bool.or_eq_true, Bool.and_eq_true, decide_eq_true_eq, beq_iff_eq]
  rcases Nat.lt_trichotomy a.2 b.2 with h | h | h
  · right; left; exact h
  · rcases le_total a.1 b.1 with hs | hs
    · left; right; exact ⟨h, hs⟩
    · right; right; exact ⟨h.symm, hs⟩
  · left; left; exact h

/-- Ranked-before means at least as many dependents. -/
theorem rankLE_le {a b : String × Nat} (h : rankLE a b = true) : b.2 ≤ a.2 := by
  unfold rankLE at h
  simp only [Bool.or_eq_true, Bool.and_eq_true, decide_eq_true_eq, beq_iff_eq] at h
  rcases h with h | ⟨h, _⟩
  · omega
  · omega

/-- With unique ids the reverse-adjacency count equals the number of
distinct other tasks listing the id as a dependency. -/
theorem dependentCount_eq_distinct {tasks : List TaskRecord}
    (hids : (tasks.map TaskRecord.id).Nodup) (id : String) :
    dependentCount (buildGraph tasks) id = distinctDependents tasks id := by
  unfold dependentCount distinctDependents
  have hsubl : ((tasks.filter fun t => (t.id != id) && t.deps.contains id).map
      TaskRecord.id).Sublist (tasks.map TaskRecord.id) :=
    (List.filter_sublist tasks).map TaskRecord.id
  have hnd := hsubl.nodup hids
  rw [List.dedup_eq_self.mpr hnd, List.length_map]
  rfl

/-- C4: every task appears in the bottleneck ranking paired with its count
of distinct other dependents (direct only), every reported count is that
number, and the ranking is sorted descending by count. -/
theorem claim_bottleneck_ranking (tasks : List TaskRecord)
    (hids : (tasks.map TaskRecord.id).Nodup) :
    (∀ t ∈ tasks,
        (t.id, distinctDependents tasks t.id) ∈ (analyze tasks).bottleneck_tasks) ∧
      (∀ p ∈ (analyze tasks).bottleneck_tasks,
        p.2 = distinctDependents tasks p.1) ∧
      (analyze tasks).bottleneck_tasks.Pairwise (fun a b => b.2 ≤ a.2) := by
  by_cases hE : tasks = []
  · subst hE
    have hbt0 : (analyze ([] : List TaskRecord)).bottleneck_tasks = [] := rfl
    refine ⟨?_, ?_, ?_⟩
    · intro t ht
      simp at ht
    · intro p hp
      rw [hbt0] at hp
      simp at hp
    · rw [hbt0]
      exact List.Pairwise.nil
  · have hbt := (analyze_eqs hE).2.2.2.2.2.1
    have hperm : (bottleneckRanking (buildGraph tasks)).Perm
        (tasks.map fun t => (t.id, dependentCount (buildGraph tasks) t.id)) :=
      List.mergeSort_perm _ rankLE
    refine ⟨?_, ?_, ?_⟩
    · intro t ht
      rw [hbt, ← dependentCount_eq_distinct hids t.id, hperm.mem_iff]
      exact List.mem_map_of_mem _ ht
    · intro p hp
      rw [hbt, hperm.mem_iff] at hp
      obtain ⟨t, ht, hpt⟩ := List.mem_map.mp hp
      rw [← hpt]
      exact dependentCount_eq_distinct hids t.id
    · rw [hbt]
      have hpw := @List.sorted_mergeSort _ rankLE rankLE_trans rankLE_total
        (tasks.map fun t => (t.id, dependentCount (buildGraph tasks) t.id))
      exact hpw.imp rankLE_le

/-- Witness for C4 at Scenario A: x is ranked with its two dependents. -/
theorem claim_bottleneck_ranking_witness :
    ("x", distinctDependents scenarioA "x") ∈ (analyze scenarioA).bottleneck_tasks :=
  (claim_bottleneck_ranking scenarioA (by decide)).1 taskX (by decide)

end TaskAnalyzer

namespace TaskAnalyzer

/-- The edge linking a walked path to its next node. -/
theorem chain'_append_edge {g : Graph} {path s : List String} {cur x : String}
    (hch : List.Chain' g.Edge (path ++ x :: s)) (hlast : path.getLast? = some cur) :
    g.Edge cur x := by
  have h := (List.chain'_append.mp hch).2.2
  exact h cur (by rw [hlast]; rfl) x rfl

/-- Every path emitted by the bounded DFS is a simple chain extending the
walked path, within the fuel bound. -/
theorem simplePathsFrom_sound {g : Graph} :
    ∀ (fuel : Nat) (path : List String) (cur : String) (p : List String),
      p ∈ simplePathsFrom g fuel path cur →
      path ≠ [] → path.Nodup → List.Chain' g.Edge path → path.getLast? = some cur →
      p.Nodup ∧ List.Chain' g.Edge p ∧ p.head? = path.head? ∧
        p.length ≤ path.length + fuel := by
  intro fuel
  induction fuel with
  | zero =>
    intro path cur p hp hne hnd hch hlast
    have hpp : p = path := by simpa [simplePathsFrom] using hp
    subst hpp
    exact ⟨hnd, hch, rfl, by omega⟩
  | succ fuel ih =>
    intro path cur p hp hne hnd hch hlast
    rw [simplePathsFrom] at hp
    rcases List.mem_cons.mp hp with hpp | hpm
    · subst hpp
      exact ⟨hnd, hch, rfl, by omega⟩
    · rw [List.mem_flatMap] at hpm
      obtain ⟨nxt, hnxt, hmem⟩ := hpm
      by_cases hin : nxt ∈ path
      · rw [if_pos hin] at hmem
        simp at hmem
      · rw [if_neg hin] at hmem
        have hnd' : (path ++ [nxt]).Nodup := by
          rw [List.nodup_append]
          refine ⟨hnd, List.nodup_singleton nxt, ?_⟩
          intro a ha ha1
          simp at ha1
          subst ha1
          exact hin ha
        have hch' : List.Chain' g.Edge (path ++ [nxt]) := by
          rw [List.chain'_append]
          refine ⟨hch, List.chain'_singleton nxt, ?_⟩
          intro u hu v hv
          rw [hlast] at hu
          simp at hu hv
          rw [← hu, ← hv]
          exact hnxt
        obtain ⟨h1, h2, h3, h4⟩ := ih (path ++ [nxt]) nxt p hmem
          (by simp) hnd' hch' (List.getLast?_concat path)
        refine ⟨h1, h2, ?_, ?_⟩
        · rw [h3, List.head?_append_of_ne_nil path hne]
        · rw [List.length_append] at h4
          simp at h4
          omega

/-- The bounded DFS finds every simple extension of the walked path whose
added length fits in the fuel. -/
theorem simplePathsFrom_complete {g : Graph} :
    ∀ (s : List String) (fuel : Nat) (path : List String) (cur : String),
      path ≠ [] → path.getLast? = some cur →
      List.Chain' g.Edge (path ++ s) → (path ++ s).Nodup →
      s.length ≤ fuel →
      (path ++ s) ∈ simplePathsFrom g fuel path cur := by
  intro s
  induction s with
  | nil =>
    intro fuel path cur _ _ _ _ _
    rw [List.append_nil]
    cases fuel with
    | zero => simp [simplePathsFrom]
    | succ f =>
      rw [simplePathsFrom]
      exact List.mem_cons_self _ _
  | cons x rest ih =>
    intro fuel path cur hne hlast hch hnd hfuel
    obtain ⟨f, rfl⟩ : ∃ f, fuel = f + 1 := by
      cases fuel with
      | zero => simp at hfuel
      | succ f => exact ⟨f, rfl⟩
    rw [simplePathsFrom]
    apply List.mem_cons_of_mem
    rw [List.mem_flatMap]
    have hedge : g.Edge cur x := chain'_append_edge hch hlast
    have hxnp : x ∉ path := by
      rcases List.nodup_append.mp hnd with ⟨_, _, hdisj⟩
      intro hx
      exact hdisj hx (by simp)
    refine ⟨x, hedge, ?_⟩
    rw [if_neg hxnp]
    have hmem := ih f (path ++ [x]) x (by simp) (List.getLast?_concat path)
      (by rw [List.append_assoc, List.singleton_append]; exact hch)
      (by rw [List.append_assoc, List.singleton_append]; exact hnd)
      (by simpa using hfuel)
    rw [show path ++ x :: rest = (path ++ [x]) ++ rest by
      rw [List.append_assoc, List.singleton_append]]
    exact hmem

/-- The longest-selection fold dominates every candidate, dominates its
seed, and returns a candidate or the seed. -/
theorem pickLongest_fold_spec :
    ∀ (cands : List (List String)) (best : List String),
      (∀ p ∈ cands,
        p.length ≤ (cands.foldl (fun b q => if b.length < q.length then q else b) best).length) ∧
      best.length ≤ (cands.foldl (fun b q => if b.length < q.length then q else b) best).length ∧
      ((cands.foldl (fun b q => if b.length < q.length then q else b) best) ∈ cands ∨
        (cands.foldl (fun b q => if b.length < q.length then q else b) best) = best) := by
  intro cands
  induction cands with
  | nil =>
    intro best
    exact ⟨fun p hp => absurd hp (by simp), le_rfl, Or.inr rfl⟩
  | cons c cs ih =>
    intro best
    rw [List.foldl_cons]
    by_cases hb : best.length < c.length
    · rw [if_pos hb]
      obtain ⟨h1, h2, h3⟩ := ih c
      refine ⟨?_, ?_, ?_⟩
      · intro p hp
        rcases List.mem_cons.mp hp with hpc | hps
        · subst hpc
          exact h2
        · exact h1 p hps
      · exact le_trans (le_of_lt hb) h2
      · rcases h3 with h | h
        · exact Or.inl (List.mem_cons_of_mem _ h)
        · rw [h]
          exact Or.inl (List.mem_cons_self _ _)
    · rw [if_neg hb]
      obtain ⟨h1, h2, h3⟩ := ih best
      refine ⟨?_, ?_, ?_⟩
      · intro p hp
        rcases List.mem_cons.mp hp with hpc | hps
        · subst hpc
          exact le_trans (by omega) h2
        · exact h1 p hps
      · exact h2
      · rcases h3 with h | h
        · exact Or.inl (List.mem_cons_of_mem _ h)
        · exact Or.inr h

/-- C8: the critical path is a longest bounded simple path from a root: on a
graph with no roots it is empty; it dominates the length of every simple
root path of at most `pathBound` edges; and with roots present it is itself
such a path. -/
theorem claim_critical_path (tasks : List TaskRecord) :
    ((buildGraph tasks).roots = [] → (analyze tasks).critical_path = []) ∧
      (∀ p, (buildGraph tasks).IsSimplePathFromRoot p →
        p.length ≤ pathBound (buildGraph tasks) + 1 →
        p.length ≤ (analyze tasks).critical_path.length) ∧
      ((buildGraph tasks).roots ≠ [] →
        (buildGraph tasks).IsSimplePathFromRoot (analyze tasks).critical_path ∧
          (analyze tasks).critical_path.length ≤ pathBound (buildGraph tasks) + 1) := by
  have hcands : ∀ p, (buildGraph tasks).IsSimplePathFromRoot p →
      p.length ≤ pathBound (buildGraph tasks) + 1 →
      p ∈ (buildGraph tasks).roots.flatMap fun r =>
        simplePathsFrom (buildGraph tasks) (pathBound (buildGraph tasks)) [r] r := by
    intro p hp hlen
    obtain ⟨hnd, hch, hhead⟩ := hp
    obtain ⟨r, hr, hreq⟩ := List.mem_map.mp hhead
    obtain ⟨tail, rfl⟩ : ∃ tail, p = r :: tail := by
      cases p with
      | nil => simp at hreq
      | cons h t =>
        have : r = h := by simpa using hreq
        exact ⟨t, by rw [this]⟩
    rw [List.mem_flatMap]
    refine ⟨r, hr, ?_⟩
    have := simplePathsFrom_complete tail (pathBound (buildGraph tasks)) [r] r
      (by simp) rfl
      (by rw [List.singleton_append]; exact hch)
      (by rw [List.singleton_append]; exact hnd)
      (by simp at hlen ⊢; omega)
    rw [List.singleton_append] at this
    exact this
  by_cases hE : tasks = []
  · subst hE
    have hroots : (buildGraph ([] : List TaskRecord)).roots = [] := rfl
    have hcp0 : (analyze ([] : List TaskRecord)).critical_path = [] := rfl
    refine ⟨fun _ => hcp0, ?_, fun h => absurd hroots h⟩
    intro p hp _
    obtain ⟨_, _, hhead⟩ := hp
    rw [hroots] at hhead
    simp at hhead
  · have hcp := (analyze_eqs hE).2.2.2.2.1
    rw [hcp]
    unfold criticalPath pickLongest
    obtain ⟨h1, _, h3⟩ := pickLongest_fold_spec
      ((buildGraph tasks).roots.flatMap fun r =>
        simplePathsFrom (buildGraph tasks) (pathBound (buildGraph tasks)) [r] r) []
    refine ⟨?_, ?_, ?_⟩
    · intro hroots
      rw [hroots]
      rfl
    · intro p hp hlen
      exact h1 p (hcands p hp hlen)
    · intro hroots
      obtain ⟨r, hr⟩ := List.exists_mem_of_ne_nil _ hroots
      have hrmem : [r] ∈ (buildGraph tasks).roots.flatMap fun r' =>
          simplePathsFrom (buildGraph tasks) (pathBound (buildGraph tasks)) [r'] r' := by
        apply hcands
        · exact ⟨List.nodup_singleton r, List.chain'_singleton r,
            List.mem_map.mpr ⟨r, hr, rfl⟩⟩
        · simp
      rcases h3 with hmem | hnil
      · obtain ⟨r', hr', hmem'⟩ := List.mem_flatMap.mp hmem
        obtain ⟨hnd, hch, hhead, hlen⟩ := simplePathsFrom_sound
          (pathBound (buildGraph tasks)) [r'] r' _ hmem'
          (by simp) (List.nodup_singleton r') (List.chain'_singleton r') rfl
        refine ⟨⟨hnd, hch, ?_⟩, by simp at hlen; omega⟩
        rw [hhead]
        exact List.mem_map.mpr ⟨r', hr', rfl⟩
      · exfalso
        have := h1 [r] hrmem
        rw [hnil] at this
        simp at this

/-- Witness for C8 at Scenario A: the path from the root y to x has length
at most the critical path's, and the returned path is itself a bounded
simple root path. -/
theorem claim_critical_path_witness :
    (2 : Nat) ≤ (analyze scenarioA).critical_path.length ∧
      (buildGraph scenarioA).IsSimplePathFromRoot (analyze scenarioA).critical_path :=
  ⟨(claim_critical_path scenarioA).2.1 ["y", "x"]
      ⟨by decide, List.chain'_cons.mpr ⟨by decide, List.chain'_singleton "x"⟩, by decide⟩
      (by decide),
   ((claim_critical_path scenarioA).2.2 (by decide)).1⟩

end TaskAnalyzer
